import Mathlib

/-!
Shallow embedding of `src/parser/literal.rs` (OData literal parser built on
the `nom` combinator library) together with proofs of the specification
claims.

Modelling conventions:
* Input is a `List Char` (a Rust `&str` slice viewed as its character
  sequence); a parser consumes a prefix and returns the unconsumed suffix.
* `nom::IResult` is `Except NErr (List Char × α)`.  `NErr.err k` models the
  recoverable `nom::Err::Error` (backtrackable, causes `alt` fallthrough)
  and `NErr.fail k` models `nom::Err::Failure` produced by `cut`
  (non-recoverable: `alt` and `opt` propagate it).
* `recognize` over a sequence of sub-parsers is realised by concatenating
  the consumed text of each component, which equals the consumed slice.
* Rust `f64` values are represented opaquely: `str::parse::<f64>` accepts
  every string matched by the float grammar here (out-of-range decimal
  strings overflow to ±inf, they do not error), so the conversion step is
  modelled as always succeeding, carrying the matched text.
* Machine integers are `Int`/`Nat` with explicit range checks mirroring
  the checked arithmetic in `nom::character::complete::i64`.
-/

/-- `nom::error::ErrorKind`, restricted to the kinds this file can produce. -/
inductive ErrKind where
  | tag | oneOf | ch | digit | twmn | isNot | many0 | verify | mapRes
  deriving DecidableEq, Repr

/-- `nom::Err`: `err` is the recoverable `Err::Error`, `fail` is the
non-recoverable `Err::Failure` created by `cut`. Positions are not tracked:
a recoverable error always backtracks to the input the caller supplied. -/
inductive NErr where
  | err (k : ErrKind)
  | fail (k : ErrKind)
  deriving DecidableEq, Repr

/-- `nom::IResult<&str, α>`: remaining input paired with the parsed value. -/
abbrev PRes (α : Type) := Except NErr (List Char × α)

/-- A parser in the embedding. -/
abbrev Parser (α : Type) := List Char → PRes α

instance instDecEqExcept {ε α : Type} [DecidableEq ε] [DecidableEq α] :
    DecidableEq (Except ε α) := fun x y =>
  match x, y with
  | .ok a, .ok b =>
      if h : a = b then .isTrue (by rw [h])
      else .isFalse (by intro hc; cases hc; exact h rfl)
  | .error e, .error f =>
      if h : e = f then .isTrue (by rw [h])
      else .isFalse (by intro hc; cases hc; exact h rfl)
  | .ok _, .error _ => .isFalse (by intro hc; cases hc)
  | .error _, .ok _ => .isFalse (by intro hc; cases hc)

/-- The ASCII decimal digits. -/
def decDigits : List Char := ['0', '1', '2', '3', '4', '5', '6', '7', '8', '9']

/-- The ASCII lowercase letters. -/
def lowerLetters : List Char :=
  ['a', 'b', 'c', 'd', 'e', 'f', 'g', 'h', 'i', 'j', 'k', 'l', 'm',
   'n', 'o', 'p', 'q', 'r', 's', 't', 'u', 'v', 'w', 'x', 'y', 'z']

/-- The ASCII uppercase letters. -/
def upperLetters : List Char :=
  ['A', 'B', 'C', 'D', 'E', 'F', 'G', 'H', 'I', 'J', 'K', 'L', 'M',
   'N', 'O', 'P', 'Q', 'R', 'S', 'T', 'U', 'V', 'W', 'X', 'Y', 'Z']

/-- Rust `char::is_digit(10)` (also nom's `digit1` character test):
exactly `'0'..='9'`. -/
def isDig (c : Char) : Bool := decDigits.contains c

/-- Rust `char::is_digit(16)`: ASCII hex digit of either case. -/
def isHexDig (c : Char) : Bool :=
  isDig c || ['a', 'b', 'c', 'd', 'e', 'f'].contains c
          || ['A', 'B', 'C', 'D', 'E', 'F'].contains c

/-- `is_base64url_char` from the source: ASCII alphanumeric or `-`, `_`, `=`. -/
def isBase64urlChar (c : Char) : Bool :=
  isDig c || lowerLetters.contains c || upperLetters.contains c
          || c = '-' || c = '_' || c = '='

/-- ASCII lowercasing, as used by `tag_no_case` on the ASCII tags of this file. -/
def lowerAscii (c : Char) : Char :=
  if 'A' ≤ c ∧ c ≤ 'Z' then Char.ofNat (c.toNat + 32) else c

/-- `nom::character::complete::char`. -/
def pChar (c : Char) : Parser Char := fun inp =>
  match inp with
  | x :: rest => if x = c then .ok (rest, x) else .error (.err .ch)
  | [] => .error (.err .ch)

/-- `nom::character::complete::one_of`. -/
def pOneOf (s : List Char) : Parser Char := fun inp =>
  match inp with
  | x :: rest => if s.contains x then .ok (rest, x) else .error (.err .oneOf)
  | [] => .error (.err .oneOf)

/-- `nom::bytes::complete::tag` (case-sensitive); returns the consumed slice. -/
def pTag : List Char → Parser (List Char) := fun t inp =>
  match t, inp with
  | [], _ => .ok (inp, [])
  | _ :: _, [] => .error (.err .tag)
  | a :: ts, x :: rest =>
      if x = a then
        match pTag ts rest with
        | .ok (r, v) => .ok (r, x :: v)
        | .error e => .error e
      else .error (.err .tag)

/-- `nom::bytes::complete::tag_no_case` (ASCII case-insensitive comparison,
which coincides with the library's comparison on the ASCII tags used here);
returns the consumed input slice with its original casing. -/
def pTagNoCase : List Char → Parser (List Char) := fun t inp =>
  match t, inp with
  | [], _ => .ok (inp, [])
  | _ :: _, [] => .error (.err .tag)
  | a :: ts, x :: rest =>
      if lowerAscii x = lowerAscii a then
        match pTagNoCase ts rest with
        | .ok (r, v) => .ok (r, x :: v)
        | .error e => .error e
      else .error (.err .tag)

/-- `nom::character::complete::digit1`: one or more ASCII digits. -/
def pDigit1 : Parser (List Char) := fun inp =>
  let t := inp.takeWhile isDig
  if t.isEmpty then .error (.err .digit) else .ok (inp.drop t.length, t)

/-- `nom::bytes::complete::take_while`: zero or more characters. -/
def pTakeWhile (p : Char → Bool) : Parser (List Char) := fun inp =>
  let t := inp.takeWhile p
  .ok (inp.drop t.length, t)

/-- `nom::bytes::complete::take_while_m_n m n p`: the maximal run of
characters satisfying `p`, capped at `n`; fails if shorter than `m`. -/
def pTakeWhileMN (m n : Nat) (p : Char → Bool) : Parser (List Char) := fun inp =>
  let t := (inp.take n).takeWhile p
  if t.length < m then .error (.err .twmn) else .ok (inp.drop t.length, t)

/-- `nom::bytes::complete::is_not s`: one or more characters not in `s`. -/
def pIsNot (s : List Char) : Parser (List Char) := fun inp =>
  let t := inp.takeWhile (fun c => !(s.contains c))
  if t.isEmpty then .error (.err .isNot) else .ok (inp.drop t.length, t)

/-- `nom::combinator::opt`: catches a recoverable error (backtracking to the
original input), propagates a `Failure`. -/
def pOpt {α : Type} (p : Parser α) : Parser (Option α) := fun inp =>
  match p inp with
  | .ok (r, v) => .ok (r, some v)
  | .error (.err _) => .ok (inp, none)
  | .error (.fail k) => .error (.fail k)

/-- `nom::branch::alt` on two alternatives: the second runs (on the original
input) only when the first fails recoverably; `nom::error::Error::append`
keeps the second error unchanged. A `Failure` is propagated immediately. -/
def pAlt2 {α : Type} (p q : Parser α) : Parser α := fun inp =>
  match p inp with
  | .ok r => .ok r
  | .error (.err _) => q inp
  | .error (.fail k) => .error (.fail k)

/-- `nom::combinator::map`. -/
def pMap {α β : Type} (f : α → β) (p : Parser α) : Parser β := fun inp =>
  match p inp with
  | .ok (r, v) => .ok (r, f v)
  | .error e => .error e

/-- `nom::combinator::value`. -/
def pValue {α β : Type} (v : β) (p : Parser α) : Parser β := fun inp =>
  match p inp with
  | .ok (r, _) => .ok (r, v)
  | .error e => .error e

/-- `nom::combinator::map_res`: a conversion failure becomes a recoverable
error of kind `MapRes`. -/
def pMapRes {α β : Type} (p : Parser α) (f : α → Option β) : Parser β := fun inp =>
  match p inp with
  | .ok (r, v) =>
      match f v with
      | some b => .ok (r, b)
      | none => .error (.err .mapRes)
  | .error e => .error e

/-- `nom::combinator::cut`: turns a recoverable error into a `Failure`. -/
def pCut {α : Type} (p : Parser α) : Parser α := fun inp =>
  match p inp with
  | .ok r => .ok r
  | .error (.err k) => .error (.fail k)
  | .error (.fail k) => .error (.fail k)

/-- A result is a recoverable (backtrackable) error. -/
def isRecErr {α : Type} (x : PRes α) : Prop := ∃ k, x = .error (.err k)

/-- The opaque representation of a Rust `f64` literal value: either the
matched decimal text handed to `str::parse::<f64>` (which accepts every
string matched by the float grammar below), or one of the special tokens. -/
inductive FloatVal where
  | ofText (s : List Char)
  | nan | inf | ninf
  deriving DecidableEq, Repr

/-- A proleptic calendar date as produced by `time::Date::from_calendar_date`
(year, month number 1–12, day). -/
structure CalDate where
  year : Int
  month : Nat
  day : Nat
  deriving DecidableEq, Repr

/-- `crate::ast::Literal`. -/
inductive Literal where
  | null
  | boolean (b : Bool)
  | integer (n : Int)
  | float (f : FloatVal)
  | str (s : List Char)
  | guid (s : List Char)
  | binary (b : List Nat)
  | date (d : CalDate)
  deriving DecidableEq, Repr

/-- The fractional part of the float grammar: `pair(char '.', opt(digit1))`,
returning its consumed text. -/
def floatFrac (j : List Char) : Except NErr (List Char × List Char) := do
  let (j1, _) ← pChar '.' j
  let (j2, fds) ← pOpt pDigit1 j1
  pure (j2, '.' :: fds.getD [])

/-- The exponent part of the float grammar: `tuple((one_of "eE",
opt(one_of "+-"), cut(digit1)))`, returning its consumed text. -/
def floatExp (j : List Char) : Except NErr (List Char × List Char) := do
  let (j1, e) ← pOneOf ['e', 'E'] j
  let (j2, es) ← pOpt (pOneOf ['+', '-']) j1
  let (j3, eds) ← pCut pDigit1 j2
  pure (j3, e :: (es.map (fun c => [c])).getD [] ++ eds)

/-- `parse_float`: `recognize(verify(tuple((opt sign, digit1, opt frac,
opt exp)), frac or exp present))` followed by `parse_to::<f64>`. The
recognized slice is the concatenation of the parts' consumed text; the
exponent digits are under `cut`, so their absence after `e`/`E` is a
non-recoverable failure. -/
def parse_float (inp : List Char) : Except NErr (List Char × FloatVal) := do
  let (i1, sgn) ← pOpt (pOneOf ['+', '-']) inp
  let (i2, ds) ← pDigit1 i1
  let (i3, frac) ← pOpt floatFrac i2
  let (i4, expn) ← pOpt floatExp i3
  if frac.isSome ∨ expn.isSome then
    let recognized := ((sgn.map (fun c => [c])).getD []) ++ ds ++ frac.getD [] ++ expn.getD []
    pure (i4, FloatVal.ofText recognized)
  else
    .error (.err .verify)

/-- One chunk of a string literal body: `alt((is_not("'"),
value("'", tag("''"))))`. -/
def strPart : Parser (List Char) :=
  pAlt2 (pIsNot ['\'']) (pValue ['\''] (pTag ['\'', '\'']))

/-- The `many0(part)` loop, with structural fuel standing in for nom's
unbounded loop: a successful `part` must consume input (otherwise nom
errors with `ErrorKind::Many0`), so the remaining input strictly shrinks
and `inp.length + 1` units of fuel make the fuelled loop equal to the
unbounded one. -/
def many0StrGo : Nat → Parser (List (List Char))
  | 0, _ => .error (.err .many0)
  | fuel + 1, inp =>
      match strPart inp with
      | .ok (rest, a) =>
          if rest.length < inp.length then
            match many0StrGo fuel rest with
            | .ok (r2, as) => .ok (r2, a :: as)
            | .error e => .error e
          else .error (.err .many0)
      | .error (.err _) => .ok (inp, [])
      | .error (.fail k) => .error (.fail k)

/-- `many0` specialised to `strPart` (the source's `many0(part)`). -/
def pMany0Str : Parser (List (List Char)) := fun inp =>
  many0StrGo (inp.length + 1) inp

/-- `parse_string`: `delimited(char '\'', many0(part), char '\'')`, joining
the chunks. -/
def parse_string (inp : List Char) : Except NErr (List Char × List Char) := do
  let (i1, _) ← pChar '\'' inp
  let (i2, parts) ← pMany0Str i1
  let (i3, _) ← pChar '\'' i2
  pure (i3, parts.flatten)

/-- `parse_guid`: `recognize` of five hex groups of lengths 8,4,4,4,12
separated by hyphens; the value is the consumed slice, case preserved. -/
def parse_guid (inp : List Char) : Except NErr (List Char × List Char) := do
  let (i1, g1) ← pTakeWhileMN 8 8 isHexDig inp
  let (i2, _) ← pChar '-' i1
  let (i3, g2) ← pTakeWhileMN 4 4 isHexDig i2
  let (i4, _) ← pChar '-' i3
  let (i5, g3) ← pTakeWhileMN 4 4 isHexDig i4
  let (i6, _) ← pChar '-' i5
  let (i7, g4) ← pTakeWhileMN 4 4 isHexDig i6
  let (i8, _) ← pChar '-' i7
  let (i9, g5) ← pTakeWhileMN 12 12 isHexDig i8
  pure (i9, g1 ++ '-' :: g2 ++ '-' :: g3 ++ '-' :: g4 ++ '-' :: g5)

/-- Numeric value of a digit run (most significant first). -/
def digitsVal (ds : List Char) : Nat :=
  ds.foldl (fun a c => a * 10 + (c.toNat - 48)) 0

/-- `parse_year`: `recognize(opt('-'), 4 digits)` then `str::parse::<i32>`
(on at most a sign and four digits this parse cannot overflow). -/
def parse_year (inp : List Char) : Except NErr (List Char × Int) := do
  let (i1, m) ← pOpt (pChar '-') inp
  let (i2, ds) ← pTakeWhileMN 4 4 isDig i1
  let v : Int := digitsVal ds
  pure (i2, if m.isSome then -v else v)

/-- `Month::try_from(u8)` from the `time` crate: valid for 1..=12. -/
def monthTryFrom (n : Nat) : Option Nat :=
  if 1 ≤ n ∧ n ≤ 12 then some n else none

/-- The lexical part of `parse_month`: `one_of "01"` then one digit,
recognized text converted to its `u8` value. -/
def monthLex (j : List Char) : Except NErr (List Char × Nat) := do
  let (j1, c0) ← pOneOf ['0', '1'] j
  let (j2, ds) ← pTakeWhileMN 1 1 isDig j1
  pure (j2, digitsVal (c0 :: ds))

/-- `parse_month`: the lexical month converted via `Month::try_from`. -/
def parse_month : Parser Nat := fun inp =>
  pMapRes monthLex monthTryFrom inp

/-- `parse_day`: `one_of "0123"` then one digit, as a `u8` (always fits). -/
def parse_day (inp : List Char) : Except NErr (List Char × Nat) := do
  let (i1, c0) ← pOneOf ['0', '1', '2', '3'] inp
  let (i2, ds) ← pTakeWhileMN 1 1 isDig i1
  pure (i2, digitsVal (c0 :: ds))

/-- `time::util::is_leap_year`, exactly as implemented there:
`year % 4 == 0 && (year % 25 != 0 || year % 16 == 0)`. -/
def isLeapYear (y : Int) : Bool :=
  y % 4 = 0 && (y % 25 ≠ 0 || y % 16 = 0)

/-- `time::util::days_in_year_month`. -/
def daysInMonth (y : Int) (m : Nat) : Nat :=
  if m = 2 then (if isLeapYear y then 29 else 28)
  else if m = 4 ∨ m = 6 ∨ m = 9 ∨ m = 11 then 30
  else 31

/-- `time::Date::from_calendar_date`: validates the year range (±9999 with
the crate's default features) and the day against the month/year. -/
def fromCalendarDate (y : Int) (m : Nat) (d : Nat) : Option CalDate :=
  if -9999 ≤ y ∧ y ≤ 9999 ∧ 1 ≤ d ∧ d ≤ daysInMonth y m then
    some ⟨y, m, d⟩
  else none

/-- The lexical part of `parse_date`:
`tuple((parse_year, char '-', parse_month, char '-', parse_day))`. -/
def dateLex (j : List Char) : Except NErr (List Char × (Int × Nat × Nat)) := do
  let (j1, y) ← parse_year j
  let (j2, _) ← pChar '-' j1
  let (j3, m) ← parse_month j2
  let (j4, _) ← pChar '-' j3
  let (j5, d) ← parse_day j4
  pure (j5, (y, m, d))

/-- `parse_date`: the lexical date then
`map_res(Date::from_calendar_date)`. -/
def parse_date : Parser CalDate := fun inp =>
  pMapRes dateLex (fun (y, m, d) => fromCalendarDate y m d) inp

/-- The URL-safe base64 alphabet character for a sextet (`alphabet::URL_SAFE`). -/
def b64char (s : Nat) : Char :=
  if s < 26 then Char.ofNat (65 + s)
  else if s < 52 then Char.ofNat (97 + (s - 26))
  else if s < 62 then Char.ofNat (48 + (s - 52))
  else if s = 62 then '-'
  else '_'

/-- Partial inverse of the URL-safe alphabet. -/
def b64charVal (c : Char) : Option Nat :=
  if 'A' ≤ c ∧ c ≤ 'Z' then some (c.toNat - 65)
  else if 'a' ≤ c ∧ c ≤ 'z' then some (26 + (c.toNat - 97))
  else if '0' ≤ c ∧ c ≤ '9' then some (52 + (c.toNat - 48))
  else if c = '-' then some 62
  else if c = '_' then some 63
  else none

/-- Reassemble bytes from a list of sextets, rejecting a dangling single
sextet and (as `decode_allow_trailing_bits` is off) any nonzero unused
trailing bits in the final partial block. -/
def b64sextetsToBytes : List Nat → Option (List Nat)
  | [] => some []
  | [_] => none
  | [s1, s2] => if s2 % 16 = 0 then some [s1 * 4 + s2 / 16] else none
  | [s1, s2, s3] =>
      if s3 % 4 = 0 then some [s1 * 4 + s2 / 16, s2 % 16 * 16 + s3 / 4] else none
  | s1 :: s2 :: s3 :: s4 :: rest =>
      match b64sextetsToBytes rest with
      | some tl => some ((s1 * 4 + s2 / 16) :: (s2 % 16 * 16 + s3 / 4) :: (s3 % 4 * 64 + s4) :: tl)
      | none => none

/-- Decode every character of a base64 body through the alphabet, failing
on the first character outside it. -/
def b64charVals : List Char → Option (List Nat)
  | [] => some []
  | c :: cs =>
      match b64charVal c, b64charVals cs with
      | some v, some vs => some (v :: vs)
      | _, _ => none

/-- The `base64` crate's `GeneralPurpose` decoder with the URL-safe alphabet
and `DecodePaddingMode::Indifferent`: trailing `=` padding, when present,
must be at most two characters and must complete a four-character block;
its absence is never an error. -/
def b64decode (cs : List Char) : Option (List Nat) :=
  let pad := (cs.reverse.takeWhile (· = '=')).length
  let body := cs.take (cs.length - pad)
  if pad > 2 then none
  else if body.any (· = '=') then none
  else if pad ≠ 0 ∧ (body.length + pad) % 4 ≠ 0 then none
  else
    match b64charVals body with
    | some ss => b64sextetsToBytes ss
    | none => none

/-- The lexical part of `parse_binary`: `delimited(tag_no_case "binary'",
take_while base64url-char, char '\'')`. -/
def binaryLex (j : List Char) : Except NErr (List Char × List Char) := do
  let (j1, _) ← pTagNoCase ('b' :: 'i' :: 'n' :: 'a' :: 'r' :: 'y' :: '\'' :: []) j
  let (j2, b64) ← pTakeWhile isBase64urlChar j1
  let (j3, _) ← pChar '\'' j2
  pure (j3, b64)

/-- `parse_binary`: the lexical binary literal then `map_res` of the
indifferent-padding URL-safe base64 decode. -/
def parse_binary : Parser (List Nat) := fun inp =>
  pMapRes binaryLex b64decode inp

/-- `nom::character::complete::i64`, accumulation loop: checked
`*10 ± digit` against the signed 64-bit range, stopping at the first
non-digit; overflow is a recoverable `Digit` error. -/
def i64go (neg : Bool) : Int → List Char → PRes Int
  | v, [] => .ok ([], v)
  | v, c :: cs =>
      if isDig c then
        let vNew : Int := if neg then v * 10 - (c.toNat - 48 : Nat) else v * 10 + (c.toNat - 48 : Nat)
        if vNew < -(2 ^ 63) ∨ 2 ^ 63 - 1 < vNew then .error (.err .digit)
        else i64go neg vNew cs
      else .ok (c :: cs, v)

/-- `nom::character::complete::i64`: optional single sign, then at least one
digit; no digit after the sign is a recoverable `Digit` error. -/
def parseI64 : Parser Int := fun inp =>
  let signRes : Bool × List Char :=
    match inp with
    | x :: t => if x = '+' then (false, t) else if x = '-' then (true, t) else (false, x :: t)
    | [] => (false, [])
  match signRes.2 with
  | [] => .error (.err .digit)
  | c :: cs => if isDig c then i64go signRes.1 0 (c :: cs) else .error (.err .digit)

/-- The `null` alternative: `value(Literal::Null, tag("null"))`. -/
def nullB : Parser Literal :=
  pValue Literal.null (pTag ('n' :: 'u' :: 'l' :: 'l' :: []))

/-- The boolean alternative: `alt((value(true, tag_no_case("true")),
value(false, tag_no_case("false"))))`. -/
def boolB : Parser Literal :=
  pAlt2 (pValue (Literal.boolean true) (pTagNoCase ('t' :: 'r' :: 'u' :: 'e' :: [])))
        (pValue (Literal.boolean false) (pTagNoCase ('f' :: 'a' :: 'l' :: 's' :: 'e' :: [])))

/-- The string alternative: `map(parse_string, Literal::String)`. -/
def stringB : Parser Literal := pMap Literal.str parse_string

/-- The date alternative: `map(parse_date, Literal::Date)`. -/
def dateB : Parser Literal := pMap Literal.date parse_date

/-- The GUID alternative: `map(parse_guid, Literal::GUID)`. -/
def guidB : Parser Literal := pMap Literal.guid parse_guid

/-- The float alternative: `alt((map(parse_float, Float), NaN, INF,
-INF))`. -/
def floatB : Parser Literal :=
  pAlt2 (pMap Literal.float parse_float) <|
  pAlt2 (pValue (Literal.float .nan) (pTag ('N' :: 'a' :: 'N' :: []))) <|
  pAlt2 (pValue (Literal.float .inf) (pTag ('I' :: 'N' :: 'F' :: [])))
        (pValue (Literal.float .ninf) (pTag ('-' :: 'I' :: 'N' :: 'F' :: [])))

/-- The integer alternative: `map(nom::character::complete::i64,
Literal::Integer)`. -/
def intB : Parser Literal := pMap Literal.integer parseI64

/-- The binary alternative: `map(parse_binary, Literal::Binary)`. -/
def binB : Parser Literal := pMap Literal.binary parse_binary

/-- `parse_literal`: `alt((null, bool, string, date, guid, float, int,
binary))` with the sub-parsers exactly as in the source. -/
def parse_literal : Parser Literal :=
  pAlt2 nullB <| pAlt2 boolB <| pAlt2 stringB <| pAlt2 dateB <|
  pAlt2 guidB <| pAlt2 floatB <| pAlt2 intB binB

/-! ## Spec-side encodings used to state the claims -/

/-- The decimal digit character for `d ≤ 9`. -/
def digitChar (d : Nat) : Char := decDigits.getD d '0'

/-- Decimal digits of a natural number, most significant first
(`"0"` for zero, no leading zeros otherwise). -/
def natDigits (n : Nat) : List Char :=
  if h : n < 10 then [digitChar n]
  else natDigits (n / 10) ++ [digitChar (n % 10)]
  termination_by n
  decreasing_by exact Nat.div_lt_self (by omega) (by omega)

/-- The decimal string rendering of a signed integer. -/
def intToDecimal (n : Int) : List Char :=
  if n < 0 then '-' :: natDigits n.natAbs else natDigits n.toNat

/-- Double every single quote of `s` (the sole escape mechanism of the
string grammar). -/
def quoteEsc : List Char → List Char
  | [] => []
  | c :: cs => (if c = '\'' then ['\'', '\''] else [c]) ++ quoteEsc cs

/-- Encode a string for the quoted-literal grammar: double every quote and
wrap the result in single quotes. -/
def encodeQuoted (s : List Char) : List Char :=
  '\'' :: (quoteEsc s ++ ['\''])

/-- URL-safe base64 body (no padding) of a byte sequence, three bytes at a
time. -/
def b64encodeBody : List Nat → List Char
  | [] => []
  | [x] => [b64char (x / 4), b64char (x % 4 * 16)]
  | [x, y] => [b64char (x / 4), b64char (x % 4 * 16 + y / 16), b64char (y % 16 * 4)]
  | x :: y :: z :: rest =>
      b64char (x / 4) :: b64char (x % 4 * 16 + y / 16) ::
      b64char (y % 16 * 4 + z / 64) :: b64char (z % 64) :: b64encodeBody rest

/-- Number of `=` padding characters of the padded encoding. -/
def b64padCount (len : Nat) : Nat :=
  if len % 3 = 1 then 2 else if len % 3 = 2 then 1 else 0

/-- Padded URL-safe base64 of a byte sequence. -/
def b64encodePadded (b : List Nat) : List Char :=
  b64encodeBody b ++ List.replicate (b64padCount b.length) '='

/-- Unpadded URL-safe base64 of a byte sequence. -/
def b64encodeUnpadded (b : List Nat) : List Char := b64encodeBody b

/-- The textual binary literal `binary'<cs>'`. -/
def binLit (cs : List Char) : List Char :=
  'b' :: 'i' :: 'n' :: 'a' :: 'r' :: 'y' :: '\'' :: (cs ++ ['\''])

/-- The uppercase form of a lowercase ASCII letter. -/
def upperAscii (c : Char) : Char :=
  if 'a' ≤ c ∧ c ≤ 'z' then Char.ofNat (c.toNat - 32) else c

/-- `s` is a casing variant of the (lowercase) reference word `w`: the same
length, and at every position either the reference letter or its uppercase
form. -/
def isCaseVariant : List Char → List Char → Bool
  | [], [] => true
  | c :: cs, w :: ws => (c = w || c = upperAscii w) && isCaseVariant cs ws
  | _, _ => false

/-! ## Basic facts about the combinators -/

theorem pAlt2_ok {α : Type} {p q : Parser α} {inp : List Char} {r}
    (h : p inp = .ok r) : pAlt2 p q inp = .ok r := by
  simp [pAlt2, h]

theorem pAlt2_err {α : Type} {p q : Parser α} {inp : List Char} {k}
    (h : p inp = .error (.err k)) : pAlt2 p q inp = q inp := by
  simp [pAlt2, h]

theorem pAlt2_fail {α : Type} {p q : Parser α} {inp : List Char} {k}
    (h : p inp = .error (.fail k)) : pAlt2 p q inp = .error (.fail k) := by
  simp [pAlt2, h]

theorem pAlt2_ok_inv {α : Type} {p q : Parser α} {inp : List Char} {r}
    (h : pAlt2 p q inp = .ok r) :
    p inp = .ok r ∨ ((∃ k, p inp = .error (.err k)) ∧ q inp = .ok r) := by
  unfold pAlt2 at h
  cases hp : p inp with
  | ok v => rw [hp] at h; exact Or.inl h
  | error e =>
      cases e with
      | err k => rw [hp] at h; exact Or.inr ⟨⟨k, rfl⟩, h⟩
      | fail k => rw [hp] at h; cases h

theorem pValue_err {α β : Type} {v : β} {p : Parser α} {inp : List Char} {e}
    (h : p inp = .error e) : pValue v p inp = .error e := by
  simp [pValue, h]

theorem pValue_ok {α β : Type} {v : β} {p : Parser α} {inp r : List Char} {a}
    (h : p inp = .ok (r, a)) : pValue v p inp = .ok (r, v) := by
  simp [pValue, h]

theorem pValue_ok_inv {α β : Type} {v : β} {p : Parser α} {inp : List Char} {r}
    (h : pValue v p inp = .ok r) : ∃ r' a, p inp = .ok (r', a) ∧ r = (r', v) := by
  unfold pValue at h
  cases hp : p inp with
  | ok w => rw [hp] at h; cases h; exact ⟨w.1, w.2, rfl, rfl⟩
  | error e => rw [hp] at h; cases h

theorem pMap_err {α β : Type} {f : α → β} {p : Parser α} {inp : List Char} {e}
    (h : p inp = .error e) : pMap f p inp = .error e := by
  simp [pMap, h]

theorem pMap_ok {α β : Type} {f : α → β} {p : Parser α} {inp r : List Char} {a}
    (h : p inp = .ok (r, a)) : pMap f p inp = .ok (r, f a) := by
  simp [pMap, h]

theorem pMap_ok_inv {α β : Type} {f : α → β} {p : Parser α} {inp : List Char} {r}
    (h : pMap f p inp = .ok r) : ∃ r' a, p inp = .ok (r', a) ∧ r = (r', f a) := by
  unfold pMap at h
  cases hp : p inp with
  | ok w => rw [hp] at h; cases h; exact ⟨w.1, w.2, rfl, rfl⟩
  | error e => rw [hp] at h; cases h

theorem pMapRes_err {α β : Type} {p : Parser α} {f : α → Option β} {inp : List Char} {e}
    (h : p inp = .error e) : pMapRes p f inp = .error e := by
  simp [pMapRes, h]

theorem pMapRes_ok {α β : Type} {p : Parser α} {f : α → Option β} {inp r : List Char} {a b}
    (h : p inp = .ok (r, a)) (hf : f a = some b) : pMapRes p f inp = .ok (r, b) := by
  simp [pMapRes, h, hf]

theorem pMapRes_none {α β : Type} {p : Parser α} {f : α → Option β} {inp r : List Char} {a}
    (h : p inp = .ok (r, a)) (hf : f a = none) : pMapRes p f inp = .error (.err .mapRes) := by
  simp [pMapRes, h, hf]

theorem pChar_eq {c : Char} {rest : List Char} : pChar c (c :: rest) = .ok (rest, c) := by
  simp [pChar]

theorem pChar_ne {c x : Char} {rest : List Char} (h : x ≠ c) :
    pChar c (x :: rest) = .error (.err .ch) := by
  simp [pChar, h]

theorem pChar_nil {c : Char} : pChar c [] = .error (.err .ch) := by
  simp [pChar]

theorem pChar_err_head {c : Char} {inp : List Char}
    (h : ∀ x, inp.head? = some x → x ≠ c) : pChar c inp = .error (.err .ch) := by
  cases inp with
  | nil => exact pChar_nil
  | cons x rest => exact pChar_ne (h x rfl)

theorem pOneOf_pos {s : List Char} {x : Char} {rest : List Char}
    (h : s.contains x = true) : pOneOf s (x :: rest) = .ok (rest, x) := by
  have hx : x ∈ s := by simpa using h
  simp [pOneOf, hx]

theorem pOneOf_neg {s : List Char} {x : Char} {rest : List Char}
    (h : s.contains x = false) : pOneOf s (x :: rest) = .error (.err .oneOf) := by
  have hx : x ∉ s := by simpa using h
  simp [pOneOf, hx]

theorem pOneOf_nil {s : List Char} : pOneOf s [] = .error (.err .oneOf) := by
  simp [pOneOf]

theorem pOneOf_err_head {s : List Char} {inp : List Char}
    (h : ∀ x, inp.head? = some x → s.contains x = false) :
    pOneOf s inp = .error (.err .oneOf) := by
  cases inp with
  | nil => exact pOneOf_nil
  | cons x rest => exact pOneOf_neg (h x rfl)

theorem pTag_head_ne {t : Char} {ts inp : List Char}
    (h : ∀ x, inp.head? = some x → x ≠ t) : pTag (t :: ts) inp = .error (.err .tag) := by
  cases inp with
  | nil => simp [pTag]
  | cons x rest => simp [pTag, h x rfl]

theorem pTagNoCase_head_ne {t : Char} {ts inp : List Char}
    (h : ∀ x, inp.head? = some x → lowerAscii x ≠ lowerAscii t) :
    pTagNoCase (t :: ts) inp = .error (.err .tag) := by
  cases inp with
  | nil => simp [pTagNoCase]
  | cons x rest => simp [pTagNoCase, h x rfl]

theorem pTagNoCase_refl {t r : List Char} : pTagNoCase t (t ++ r) = .ok (r, t) := by
  induction t with
  | nil => simp [pTagNoCase]
  | cons a ts ih => simp [pTagNoCase, ih]

/-! ## Facts about `takeWhile`-based primitives -/

theorem takeWhile_all {p : Char → Bool} {l : List Char}
    (h : ∀ c ∈ l, p c = true) : l.takeWhile p = l := by
  induction l with
  | nil => rfl
  | cons c cs ih =>
      rw [List.takeWhile_cons, h c (by simp)]
      simp [ih fun c hc => h c (by simp [hc])]

theorem takeWhile_nil_of_head {p : Char → Bool} {l : List Char}
    (h : ∀ c, l.head? = some c → p c = false) : l.takeWhile p = [] := by
  cases l with
  | nil => rfl
  | cons c cs => rw [List.takeWhile_cons, h c rfl]; simp

theorem takeWhile_append_not {p : Char → Bool} {l r : List Char}
    (hl : ∀ c ∈ l, p c = true) (hr : ∀ c, r.head? = some c → p c = false) :
    (l ++ r).takeWhile p = l := by
  induction l with
  | nil => simpa using takeWhile_nil_of_head hr
  | cons c cs ih =>
      rw [List.cons_append, List.takeWhile_cons, hl c (by simp)]
      simp [ih fun c hc => hl c (by simp [hc])]

theorem takeWhile_mem {p : Char → Bool} {l : List Char} {c : Char}
    (h : c ∈ l.takeWhile p) : p c = true := by
  induction l with
  | nil => cases h
  | cons a as ih =>
      rw [List.takeWhile_cons] at h
      by_cases hp : p a = true
      · rw [hp] at h
        simp only [if_true] at h
        rcases List.mem_cons.mp h with h1 | h2
        · rwa [h1]
        · exact ih h2
      · rw [Bool.not_eq_true] at hp
        rw [hp] at h
        simp at h

theorem pDigit1_run {ds r : List Char} (hne : ds ≠ [])
    (hds : ∀ c ∈ ds, isDig c = true) (hr : ∀ c, r.head? = some c → isDig c = false) :
    pDigit1 (ds ++ r) = .ok (r, ds) := by
  unfold pDigit1
  rw [takeWhile_append_not hds hr]
  simp only [List.isEmpty_iff, List.drop_left]
  simp [hne]

theorem pDigit1_err {inp : List Char}
    (h : ∀ c, inp.head? = some c → isDig c = false) :
    pDigit1 inp = .error (.err .digit) := by
  unfold pDigit1
  rw [takeWhile_nil_of_head h]
  simp

theorem pTakeWhile_run {p : Char → Bool} {l r : List Char}
    (hl : ∀ c ∈ l, p c = true) (hr : ∀ c, r.head? = some c → p c = false) :
    pTakeWhile p (l ++ r) = .ok (r, l) := by
  unfold pTakeWhile
  rw [takeWhile_append_not hl hr]
  simp [List.drop_left]

theorem head?_take {k : Nat} {r : List Char} {c : Char}
    (h : (r.take k).head? = some c) : r.head? = some c := by
  cases k with
  | zero => simp at h
  | succ k' => cases r with
    | nil => simp at h
    | cons a as => simpa using h

theorem pTwmn_exact {n : Nat} {p : Char → Bool} {ds r : List Char}
    (hlen : ds.length = n) (hds : ∀ c ∈ ds, p c = true) :
    pTakeWhileMN n n p (ds ++ r) = .ok (r, ds) := by
  unfold pTakeWhileMN
  rw [← hlen, List.take_left, takeWhile_all hds]
  simp [List.drop_left]

theorem pTwmn_err_short {m n : Nat} {p : Char → Bool} {ds r : List Char}
    (hds : ∀ c ∈ ds, p c = true) (hr : ∀ c, r.head? = some c → p c = false)
    (hlt : ds.length < m) (hle : ds.length ≤ n) :
    pTakeWhileMN m n p (ds ++ r) = .error (.err .twmn) := by
  unfold pTakeWhileMN
  rw [List.take_append_eq_append_take, List.take_of_length_le hle,
    takeWhile_append_not hds (fun c hc => hr c (head?_take hc))]
  simp [hlt]

theorem ebind_ok {α β : Type} (a : α) (f : α → Except NErr β) :
    (Except.ok a >>= f) = f a := rfl

theorem ebind_err {α β : Type} (e : NErr) (f : α → Except NErr β) :
    ((Except.error e : Except NErr α) >>= f) = .error e := rfl

theorem pOpt_ok {α : Type} {p : Parser α} {inp r : List Char} {a}
    (h : p inp = .ok (r, a)) : pOpt p inp = .ok (r, some a) := by
  simp [pOpt, h]

theorem pOpt_err {α : Type} {p : Parser α} {inp : List Char} {k}
    (h : p inp = .error (.err k)) : pOpt p inp = .ok (inp, none) := by
  simp [pOpt, h]

theorem pOpt_fail {α : Type} {p : Parser α} {inp : List Char} {k}
    (h : p inp = .error (.fail k)) : pOpt p inp = .error (.fail k) := by
  simp [pOpt, h]

theorem pCut_ok {α : Type} {p : Parser α} {inp : List Char} {r}
    (h : p inp = .ok r) : pCut p inp = .ok r := by
  simp [pCut, h]

theorem pCut_err {α : Type} {p : Parser α} {inp : List Char} {k}
    (h : p inp = .error (.err k)) : pCut p inp = .error (.fail k) := by
  simp [pCut, h]

theorem pTwmn_err_head {m n : Nat} {p : Char → Bool} {inp : List Char}
    (h : ∀ c, inp.head? = some c → p c = false) (hm : 0 < m) :
    pTakeWhileMN m n p inp = .error (.err .twmn) := by
  unfold pTakeWhileMN
  rw [takeWhile_nil_of_head (fun c hc => h c (head?_take hc))]
  simp [hm]

theorem pTwmn_ok_inv {n : Nat} {p : Char → Bool} {inp r v : List Char}
    (h : pTakeWhileMN n n p inp = .ok (r, v)) :
    v.length = n ∧ (∀ c ∈ v, p c = true) ∧ inp = v ++ r := by
  unfold pTakeWhileMN at h
  set t := (inp.take n).takeWhile p with ht
  by_cases hlt : t.length < n
  · simp [hlt] at h
  · simp only [hlt, if_false, Except.ok.injEq, Prod.mk.injEq] at h
    obtain ⟨hr, hv⟩ := h
    have hpre : t <+: inp := by
      rw [ht]; exact (List.takeWhile_prefix p).trans (List.take_prefix n inp)
    obtain ⟨u, hu⟩ := hpre
    have hlen : t.length = n := by
      have h1 : t.length ≤ (inp.take n).length := by
        rw [ht]; exact (List.takeWhile_prefix p).length_le
      have h2 : (inp.take n).length ≤ n := by
        rw [List.length_take]; exact Nat.min_le_left _ _
      omega
    have hmem : ∀ c ∈ t, p c = true := by
      rw [ht]; exact fun c hc => takeWhile_mem hc
    subst hv
    refine ⟨hlen, hmem, ?_⟩
    rw [← hr, ← hu, List.drop_left]

/-! ## Character class case analysis -/

theorem dig_cases {c : Char} (h : isDig c = true) :
    c = '0' ∨ c = '1' ∨ c = '2' ∨ c = '3' ∨ c = '4' ∨
    c = '5' ∨ c = '6' ∨ c = '7' ∨ c = '8' ∨ c = '9' := by
  have hm : c ∈ decDigits := by simpa [isDig] using h
  simpa [decDigits] using hm

/-- The character facts needed to show that a digit never begins the
null/boolean/string/NaN/INF alternatives, is a hex digit, and is none of
the structural characters of the numeric grammars. -/
theorem isDig_facts {c : Char} (h : isDig c = true) :
    c ≠ 'n' ∧ lowerAscii c ≠ 't' ∧ lowerAscii c ≠ 'f' ∧ c ≠ '\'' ∧
    c ≠ '-' ∧ c ≠ '+' ∧ c ≠ 'N' ∧ c ≠ 'I' ∧ lowerAscii c ≠ 'b' ∧
    isHexDig c = true ∧ c ≠ '.' ∧ c ≠ 'e' ∧ c ≠ 'E' := by
  rcases dig_cases h with rfl | rfl | rfl | rfl | rfl | rfl | rfl | rfl | rfl | rfl <;> decide

theorem isDig_all_hex {ds : List Char} (h : ∀ c ∈ ds, isDig c = true) :
    ∀ c ∈ ds, isHexDig c = true :=
  fun c hc => (isDig_facts (h c hc)).2.2.2.2.2.2.2.2.2.1

example : parse_literal "True".toList = .ok ([], .boolean true) := by decide
example : parse_literal "123".toList = .ok ([], .integer 123) := by decide
example : parse_literal "-123".toList = .ok ([], .integer (-123)) := by decide
example : parse_literal "''".toList = .ok ([], .str []) := by decide
example : parse_literal "'g''day'".toList = .ok ([], .str "g'day".toList) := by decide
example : parse_literal "2023-01-01".toList = .ok ([], .date ⟨2023, 1, 1⟩) := by decide
example : parse_literal "-0001-01-01".toList = .ok ([], .date ⟨-1, 1, 1⟩) := by decide
example : parse_literal "1e10".toList = .ok ([], .float (.ofText "1e10".toList)) := by decide
example : parse_literal "NaN".toList = .ok ([], .float .nan) := by decide
example : parse_literal "2023-02-30".toList =
    .ok ("-02-30".toList, .integer 2023) := by decide
example : parse_literal "1e".toList = .error (.fail .digit) := by decide
example : parse_literal "NULL".toList = .error (.err .tag) := by decide
example : parse_binary "binary'YQ=='".toList = .ok ([], [97]) := by decide
example : parse_binary "binary'YQ'".toList = .ok ([], [97]) := by decide
example : parse_guid "d13efbec-aa20-47f4-8756-c38852488b6e".toList =
    .ok ([], "d13efbec-aa20-47f4-8756-c38852488b6e".toList) := by decide

theorem parse_year_err_nodig {inp : List Char}
    (h : ∀ c, inp.head? = some c → isDig c = false ∧ c ≠ '-') :
    parse_year inp = .error (.err .twmn) := by
  unfold parse_year
  rw [pOpt_err (pChar_err_head (fun x hx => (h x hx).2)), ebind_ok]
  simp only []
  rw [pTwmn_err_head (fun c hc => (h c hc).1) (by norm_num), ebind_err]

/-! ## The `i64` accumulation loop -/

theorem digitsVal_from (a : Nat) (ds : List Char) :
    ds.foldl (fun x c => x * 10 + (c.toNat - 48)) a =
      a * 10 ^ ds.length + digitsVal ds := by
  induction ds generalizing a with
  | nil => simp [digitsVal]
  | cons c cs ih =>
      rw [List.foldl_cons]
      rw [ih (a * 10 + (c.toNat - 48))]
      have h0 : digitsVal (c :: cs) = (c.toNat - 48) * 10 ^ cs.length + digitsVal cs := by
        unfold digitsVal
        rw [List.foldl_cons]
        simpa using ih (0 * 10 + (c.toNat - 48))
      rw [h0]
      simp [List.length_cons, pow_succ]
      ring

theorem digitsVal_cons (c : Char) (cs : List Char) :
    digitsVal (c :: cs) = (c.toNat - 48) * 10 ^ cs.length + digitsVal cs := by
  unfold digitsVal
  rw [List.foldl_cons]
  simpa using digitsVal_from (0 * 10 + (c.toNat - 48)) cs

theorem i64go_pos_ok {ds r : List Char} {v : Int}
    (hds : ∀ c ∈ ds, isDig c = true) (hr : ∀ c, r.head? = some c → isDig c = false)
    (hv : 0 ≤ v) (hbound : v * 10 ^ ds.length + (digitsVal ds : Int) ≤ 2 ^ 63 - 1) :
    i64go false v (ds ++ r) = .ok (r, v * 10 ^ ds.length + (digitsVal ds : Int)) := by
  induction ds generalizing v with
  | nil =>
      simp only [digitsVal, List.foldl_nil, List.length_nil, pow_zero, mul_one,
        Nat.cast_zero, add_zero, List.nil_append]
      cases r with
      | nil => simp [i64go]
      | cons c cs =>
          unfold i64go
          rw [hr c rfl]
          simp
  | cons c cs ih =>
      have hc : isDig c = true := hds c (by simp)
      rw [List.cons_append]
      simp only [i64go, hc, if_true, Bool.false_eq_true, if_false]
      have hP1 : (1 : Int) ≤ 10 ^ cs.length := one_le_pow₀ (by norm_num)
      have hd0 : (0 : Int) ≤ ((c.toNat - 48 : Nat) : Int) := Int.natCast_nonneg _
      have hval0 : (0 : Int) ≤ (digitsVal cs : Int) := Int.natCast_nonneg _
      have harith : (v * 10 + ((c.toNat - 48 : Nat) : Int)) * 10 ^ cs.length
          + (digitsVal cs : Int) = v * 10 ^ (c :: cs).length + (digitsVal (c :: cs) : Int) := by
        rw [digitsVal_cons]
        push_cast
        rw [List.length_cons, pow_succ]
        ring
      have hvNew : 0 ≤ v * 10 + ((c.toNat - 48 : Nat) : Int) := by positivity
      have hle : v * 10 + ((c.toNat - 48 : Nat) : Int) ≤ 2 ^ 63 - 1 := by
        have key : v * 10 + ((c.toNat - 48 : Nat) : Int) ≤
            (v * 10 + ((c.toNat - 48 : Nat) : Int)) * 10 ^ cs.length :=
          le_mul_of_one_le_right hvNew hP1
        have h2 : (v * 10 + ((c.toNat - 48 : Nat) : Int)) * 10 ^ cs.length
            + (digitsVal cs : Int) ≤ 2 ^ 63 - 1 := by
          rw [harith]; exact hbound
        linarith
      have hcond : ¬(v * 10 + ((c.toNat - 48 : Nat) : Int) < -2 ^ 63 ∨
          2 ^ 63 - 1 < v * 10 + ((c.toNat - 48 : Nat) : Int)) := by
        push_neg
        constructor
        · linarith
        · exact hle
      simp only [if_neg hcond]
      rw [ih (fun x hx => hds x (by simp [hx])) hvNew (by rw [harith]; exact hbound)]
      rw [harith]

theorem i64go_pos_overflow {ds r : List Char} {v : Int}
    (hds : ∀ c ∈ ds, isDig c = true)
    (hv : 0 ≤ v) (hvmax : v ≤ 2 ^ 63 - 1)
    (hover : 2 ^ 63 - 1 < v * 10 ^ ds.length + (digitsVal ds : Int)) :
    i64go false v (ds ++ r) = .error (.err .digit) := by
  induction ds generalizing v with
  | nil =>
      exfalso
      simp only [digitsVal, List.foldl_nil, List.length_nil, pow_zero, mul_one,
        Nat.cast_zero, add_zero] at hover
      linarith
  | cons c cs ih =>
      have hc : isDig c = true := hds c (by simp)
      rw [List.cons_append]
      simp only [i64go, hc, if_true, Bool.false_eq_true, if_false]
      have hd0 : (0 : Int) ≤ ((c.toNat - 48 : Nat) : Int) := Int.natCast_nonneg _
      have hvNew : 0 ≤ v * 10 + ((c.toNat - 48 : Nat) : Int) := by positivity
      have harith : (v * 10 + ((c.toNat - 48 : Nat) : Int)) * 10 ^ cs.length
          + (digitsVal cs : Int) = v * 10 ^ (c :: cs).length + (digitsVal (c :: cs) : Int) := by
        rw [digitsVal_cons]
        push_cast
        rw [List.length_cons, pow_succ]
        ring
      by_cases hbig : 2 ^ 63 - 1 < v * 10 + ((c.toNat - 48 : Nat) : Int)
      · simp only [if_pos (Or.inr hbig)]
      · push_neg at hbig
        have hcond : ¬(v * 10 + ((c.toNat - 48 : Nat) : Int) < -2 ^ 63 ∨
            2 ^ 63 - 1 < v * 10 + ((c.toNat - 48 : Nat) : Int)) := by
          push_neg
          exact ⟨by linarith, hbig⟩
        simp only [if_neg hcond]
        exact ih (fun x hx => hds x (by simp [hx])) hvNew hbig (by rw [harith]; exact hover)

theorem i64go_neg_ok {ds r : List Char} {v : Int}
    (hds : ∀ c ∈ ds, isDig c = true) (hr : ∀ c, r.head? = some c → isDig c = false)
    (hv : v ≤ 0) (hbound : -2 ^ 63 ≤ v * 10 ^ ds.length - (digitsVal ds : Int)) :
    i64go true v (ds ++ r) = .ok (r, v * 10 ^ ds.length - (digitsVal ds : Int)) := by
  induction ds generalizing v with
  | nil =>
      simp only [digitsVal, List.foldl_nil, List.length_nil, pow_zero, mul_one,
        Nat.cast_zero, sub_zero, List.nil_append]
      cases r with
      | nil => simp [i64go]
      | cons c cs =>
          unfold i64go
          rw [hr c rfl]
          simp
  | cons c cs ih =>
      have hc : isDig c = true := hds c (by simp)
      rw [List.cons_append]
      simp only [i64go, hc, if_true, Bool.true_eq_false, if_false]
      have hP1 : (1 : Int) ≤ 10 ^ cs.length := one_le_pow₀ (by norm_num)
      have hd0 : (0 : Int) ≤ ((c.toNat - 48 : Nat) : Int) := Int.natCast_nonneg _
      have hval0 : (0 : Int) ≤ (digitsVal cs : Int) := Int.natCast_nonneg _
      have harith : (v * 10 - ((c.toNat - 48 : Nat) : Int)) * 10 ^ cs.length
          - (digitsVal cs : Int) = v * 10 ^ (c :: cs).length - (digitsVal (c :: cs) : Int) := by
        rw [digitsVal_cons]
        push_cast
        rw [List.length_cons, pow_succ]
        ring
      have hvNew : v * 10 - ((c.toNat - 48 : Nat) : Int) ≤ 0 := by linarith
      have hge : -2 ^ 63 ≤ v * 10 - ((c.toNat - 48 : Nat) : Int) := by
        have hmul : (v * 10 - ((c.toNat - 48 : Nat) : Int)) * (10 ^ cs.length - 1) ≤ 0 :=
          mul_nonpos_of_nonpos_of_nonneg hvNew (by linarith)
        have hexp : (v * 10 - ((c.toNat - 48 : Nat) : Int)) * (10 ^ cs.length - 1) =
            (v * 10 - ((c.toNat - 48 : Nat) : Int)) * 10 ^ cs.length
            - (v * 10 - ((c.toNat - 48 : Nat) : Int)) := by ring
        have h2 : -2 ^ 63 ≤ (v * 10 - ((c.toNat - 48 : Nat) : Int)) * 10 ^ cs.length
            - (digitsVal cs : Int) := by
          rw [harith]; exact hbound
        linarith
      have hcond : ¬(v * 10 - ((c.toNat - 48 : Nat) : Int) < -2 ^ 63 ∨
          2 ^ 63 - 1 < v * 10 - ((c.toNat - 48 : Nat) : Int)) := by
        push_neg
        constructor
        · linarith
        · linarith
      simp only [if_neg hcond]
      rw [ih (fun x hx => hds x (by simp [hx])) hvNew (by rw [harith]; exact hbound)]
      rw [harith]

theorem i64go_neg_overflow {ds r : List Char} {v : Int}
    (hds : ∀ c ∈ ds, isDig c = true)
    (hv : v ≤ 0) (hvmin : -2 ^ 63 ≤ v)
    (hover : v * 10 ^ ds.length - (digitsVal ds : Int) < -2 ^ 63) :
    i64go true v (ds ++ r) = .error (.err .digit) := by
  induction ds generalizing v with
  | nil =>
      exfalso
      simp only [digitsVal, List.foldl_nil, List.length_nil, pow_zero, mul_one,
        Nat.cast_zero, sub_zero] at hover
      linarith
  | cons c cs ih =>
      have hc : isDig c = true := hds c (by simp)
      rw [List.cons_append]
      simp only [i64go, hc, if_true, Bool.true_eq_false, if_false]
      have hd0 : (0 : Int) ≤ ((c.toNat - 48 : Nat) : Int) := Int.natCast_nonneg _
      have hvNew : v * 10 - ((c.toNat - 48 : Nat) : Int) ≤ 0 := by linarith
      have harith : (v * 10 - ((c.toNat - 48 : Nat) : Int)) * 10 ^ cs.length
          - (digitsVal cs : Int) = v * 10 ^ (c :: cs).length - (digitsVal (c :: cs) : Int) := by
        rw [digitsVal_cons]
        push_cast
        rw [List.length_cons, pow_succ]
        ring
      by_cases hsmall : v * 10 - ((c.toNat - 48 : Nat) : Int) < -2 ^ 63
      · simp only [if_pos (Or.inl hsmall)]
      · push_neg at hsmall
        have hcond : ¬(v * 10 - ((c.toNat - 48 : Nat) : Int) < -2 ^ 63 ∨
            2 ^ 63 - 1 < v * 10 - ((c.toNat - 48 : Nat) : Int)) := by
          push_neg
          exact ⟨hsmall, by linarith⟩
        simp only [if_neg hcond]
        exact ih (fun x hx => hds x (by simp [hx])) hvNew hsmall (by rw [harith]; exact hover)

theorem dig_ne {c a : Char} (h : isDig c = true) (ha : isDig a = false) : c ≠ a := by
  intro hca
  rw [hca, ha] at h
  cases h

theorem dig_lowerAscii {c : Char} (h : isDig c = true) : lowerAscii c = c := by
  rcases dig_cases h with rfl | rfl | rfl | rfl | rfl | rfl | rfl | rfl | rfl | rfl <;> decide

theorem parseI64_pos {ds r : List Char} (hne : ds ≠ [])
    (hds : ∀ c ∈ ds, isDig c = true) (hr : ∀ c, r.head? = some c → isDig c = false)
    (hmax : (digitsVal ds : Int) ≤ 2 ^ 63 - 1) :
    parseI64 (ds ++ r) = .ok (r, (digitsVal ds : Int)) := by
  obtain ⟨c, cs, rfl⟩ : ∃ c cs, ds = c :: cs := by
    cases ds with
    | nil => exact absurd rfl hne
    | cons c cs => exact ⟨c, cs, rfl⟩
  have hc : isDig c = true := hds c (by simp)
  rw [List.cons_append]
  simp only [parseI64, if_neg (dig_ne hc (by decide : isDig '+' = false)),
    if_neg (dig_ne hc (by decide : isDig '-' = false)), hc, if_true]
  rw [← List.cons_append,
    i64go_pos_ok hds hr (le_refl 0) (by simpa using hmax)]
  simp

theorem parseI64_plus {ds r : List Char} (hne : ds ≠ [])
    (hds : ∀ c ∈ ds, isDig c = true) (hr : ∀ c, r.head? = some c → isDig c = false)
    (hmax : (digitsVal ds : Int) ≤ 2 ^ 63 - 1) :
    parseI64 ('+' :: (ds ++ r)) = .ok (r, (digitsVal ds : Int)) := by
  obtain ⟨c, cs, rfl⟩ : ∃ c cs, ds = c :: cs := by
    cases ds with
    | nil => exact absurd rfl hne
    | cons c cs => exact ⟨c, cs, rfl⟩
  have hc : isDig c = true := hds c (by simp)
  rw [List.cons_append]
  simp only [parseI64, if_pos rfl, hc, if_true]
  rw [← List.cons_append,
    i64go_pos_ok hds hr (le_refl 0) (by simpa using hmax)]
  simp

theorem parseI64_minus {ds r : List Char} (hne : ds ≠ [])
    (hds : ∀ c ∈ ds, isDig c = true) (hr : ∀ c, r.head? = some c → isDig c = false)
    (hmin : -2 ^ 63 ≤ -(digitsVal ds : Int)) :
    parseI64 ('-' :: (ds ++ r)) = .ok (r, -(digitsVal ds : Int)) := by
  obtain ⟨c, cs, rfl⟩ : ∃ c cs, ds = c :: cs := by
    cases ds with
    | nil => exact absurd rfl hne
    | cons c cs => exact ⟨c, cs, rfl⟩
  have hc : isDig c = true := hds c (by simp)
  rw [List.cons_append]
  simp only [parseI64, if_neg (by decide : ¬('-' : Char) = '+'), if_pos rfl, hc, if_true]
  rw [← List.cons_append,
    i64go_neg_ok hds hr (le_refl 0) (by simpa using hmin)]
  simp

theorem parseI64_pos_overflow {ds r : List Char} (hne : ds ≠ [])
    (hds : ∀ c ∈ ds, isDig c = true)
    (hover : 2 ^ 63 - 1 < (digitsVal ds : Int)) :
    parseI64 (ds ++ r) = .error (.err .digit) := by
  obtain ⟨c, cs, rfl⟩ : ∃ c cs, ds = c :: cs := by
    cases ds with
    | nil => exact absurd rfl hne
    | cons c cs => exact ⟨c, cs, rfl⟩
  have hc : isDig c = true := hds c (by simp)
  rw [List.cons_append]
  simp only [parseI64, if_neg (dig_ne hc (by decide : isDig '+' = false)),
    if_neg (dig_ne hc (by decide : isDig '-' = false)), hc, if_true]
  rw [← List.cons_append]
  exact i64go_pos_overflow hds (le_refl 0) (by norm_num) (by simpa using hover)

theorem parseI64_plus_overflow {ds r : List Char} (hne : ds ≠ [])
    (hds : ∀ c ∈ ds, isDig c = true)
    (hover : 2 ^ 63 - 1 < (digitsVal ds : Int)) :
    parseI64 ('+' :: (ds ++ r)) = .error (.err .digit) := by
  obtain ⟨c, cs, rfl⟩ : ∃ c cs, ds = c :: cs := by
    cases ds with
    | nil => exact absurd rfl hne
    | cons c cs => exact ⟨c, cs, rfl⟩
  have hc : isDig c = true := hds c (by simp)
  rw [List.cons_append]
  simp only [parseI64, if_pos rfl, hc, if_true]
  rw [← List.cons_append]
  exact i64go_pos_overflow hds (le_refl 0) (by norm_num) (by simpa using hover)

theorem parseI64_minus_overflow {ds r : List Char} (hne : ds ≠ [])
    (hds : ∀ c ∈ ds, isDig c = true)
    (hover : -(digitsVal ds : Int) < -2 ^ 63) :
    parseI64 ('-' :: (ds ++ r)) = .error (.err .digit) := by
  obtain ⟨c, cs, rfl⟩ : ∃ c cs, ds = c :: cs := by
    cases ds with
    | nil => exact absurd rfl hne
    | cons c cs => exact ⟨c, cs, rfl⟩
  have hc : isDig c = true := hds c (by simp)
  rw [List.cons_append]
  simp only [parseI64, if_neg (by decide : ¬('-' : Char) = '+'), if_pos rfl, hc, if_true]
  rw [← List.cons_append]
  exact i64go_neg_overflow hds (le_refl 0) (by norm_num) (by simpa using hover)

theorem parseI64_err_nosign {inp : List Char}
    (h : ∀ c, inp.head? = some c → isDig c = false ∧ c ≠ '+' ∧ c ≠ '-') :
    parseI64 inp = .error (.err .digit) := by
  cases inp with
  | nil => simp [parseI64]
  | cons c t =>
      obtain ⟨h1, h2, h3⟩ := h c rfl
      simp [parseI64, h1, h2, h3]

theorem parseI64_err_sign {inp : List Char} {s : Char} (hs : s = '+' ∨ s = '-')
    (h : ∀ c, inp.head? = some c → isDig c = false) :
    parseI64 (s :: inp) = .error (.err .digit) := by
  rcases hs with rfl | rfl <;>
  · cases inp with
    | nil => simp [parseI64]
    | cons c t => simp [parseI64, h c rfl]

/-! ## Failure lemmas for the dispatcher alternatives -/

theorem contains_false_of_ne {l : List Char} {c : Char} (h : c ∉ l) :
    l.contains c = false := by
  simpa using h

theorem contains_true_of_mem {l : List Char} {c : Char} (h : c ∈ l) :
    l.contains c = true := by
  simpa using h

theorem head_all {inp : List Char} {c : Char} {P : Char → Prop}
    (hc : inp.head? = some c) (h : P c) : ∀ x, inp.head? = some x → P x := by
  intro x hx
  rw [hc] at hx
  injection hx with hx
  rwa [← hx]

theorem nullB_err {inp : List Char} {c : Char} (hc : inp.head? = some c)
    (h : c ≠ 'n') : nullB inp = .error (.err .tag) :=
  pValue_err (pTag_head_ne (head_all hc h))

theorem boolB_err {inp : List Char} {c : Char} (hc : inp.head? = some c)
    (ht : lowerAscii c ≠ 't') (hf : lowerAscii c ≠ 'f') :
    boolB inp = .error (.err .tag) := by
  unfold boolB
  rw [pAlt2_err (pValue_err (pTagNoCase_head_ne (head_all hc
    (by rw [(by decide : lowerAscii 't' = 't')]; exact ht))))]
  exact pValue_err (pTagNoCase_head_ne (head_all hc
    (by rw [(by decide : lowerAscii 'f' = 'f')]; exact hf)))

theorem parse_string_err {inp : List Char}
    (h : ∀ c, inp.head? = some c → c ≠ '\'') :
    parse_string inp = .error (.err .ch) := by
  unfold parse_string
  rw [pChar_err_head h, ebind_err]

theorem stringB_err {inp : List Char}
    (h : ∀ c, inp.head? = some c → c ≠ '\'') :
    stringB inp = .error (.err .ch) :=
  pMap_err (parse_string_err h)

theorem pTwmn_run_long {n : Nat} {p : Char → Bool} {ds r : List Char}
    (hds : ∀ c ∈ ds, p c = true) (hn : n ≤ ds.length) :
    pTakeWhileMN n n p (ds ++ r) = .ok (ds.drop n ++ r, ds.take n) := by
  have hsplit : ds ++ r = ds.take n ++ (ds.drop n ++ r) := by
    rw [← List.append_assoc, List.take_append_drop]
  rw [hsplit]
  exact pTwmn_exact (by rw [List.length_take]; omega)
    (fun c hc => hds c (List.take_subset n ds hc))

theorem dropRun_head_not {ds r : List Char} {n : Nat}
    (hds : ∀ c ∈ ds, isDig c = true) (hr : ∀ c, r.head? = some c → c ≠ '-') :
    ∀ c, (ds.drop n ++ r).head? = some c → c ≠ '-' := by
  intro c hc
  cases hd : ds.drop n with
  | nil =>
      rw [hd] at hc
      simp only [List.nil_append] at hc
      exact hr c hc
  | cons a as =>
      rw [hd] at hc
      simp only [List.cons_append, List.head?_cons, Option.some.injEq] at hc
      have ha : a ∈ ds := List.drop_subset n ds (hd ▸ List.mem_cons_self a as)
      rw [← hc]
      exact dig_ne (hds a ha) (by decide)

theorem parse_year_long {ds r : List Char}
    (hds : ∀ c ∈ ds, isDig c = true) (h4 : 4 ≤ ds.length) :
    parse_year (ds ++ r) = .ok (ds.drop 4 ++ r, (digitsVal (ds.take 4) : Int)) := by
  obtain ⟨c, cs, rfl⟩ : ∃ c cs, ds = c :: cs := by
    cases ds with
    | nil => simp at h4
    | cons c cs => exact ⟨c, cs, rfl⟩
  have hc : isDig c = true := hds c (by simp)
  unfold parse_year
  rw [pOpt_err (pChar_err_head (head_all (by simp : ((c :: cs) ++ r).head? = some c)
    (dig_ne hc (by decide)))), ebind_ok]
  simp only []
  rw [pTwmn_run_long hds h4, ebind_ok]
  simp only [Option.isSome_none, Bool.false_eq_true, if_false]
  rfl

theorem parse_year_minus_long {ds r : List Char}
    (hds : ∀ c ∈ ds, isDig c = true) (h4 : 4 ≤ ds.length) :
    parse_year ('-' :: (ds ++ r)) =
      .ok (ds.drop 4 ++ r, -(digitsVal (ds.take 4) : Int)) := by
  unfold parse_year
  rw [pOpt_ok (pChar_eq), ebind_ok]
  simp only []
  rw [pTwmn_run_long hds h4, ebind_ok]
  simp only [Option.isSome_some, if_true]
  rfl

theorem parse_year_short {ds r : List Char} (hne : ds ≠ [])
    (hds : ∀ c ∈ ds, isDig c = true) (hr : ∀ c, r.head? = some c → isDig c = false)
    (h4 : ds.length < 4) :
    parse_year (ds ++ r) = .error (.err .twmn) := by
  obtain ⟨c, cs, rfl⟩ : ∃ c cs, ds = c :: cs := by
    cases ds with
    | nil => exact absurd rfl hne
    | cons c cs => exact ⟨c, cs, rfl⟩
  have hc : isDig c = true := hds c (by simp)
  unfold parse_year
  rw [pOpt_err (pChar_err_head (head_all (by simp : ((c :: cs) ++ r).head? = some c)
    (dig_ne hc (by decide)))), ebind_ok]
  simp only []
  rw [pTwmn_err_short hds hr (by omega) (by omega), ebind_err]

theorem parse_year_minus_short {ds r : List Char}
    (hds : ∀ c ∈ ds, isDig c = true) (hr : ∀ c, r.head? = some c → isDig c = false)
    (h4 : ds.length < 4) :
    parse_year ('-' :: (ds ++ r)) = .error (.err .twmn) := by
  unfold parse_year
  rw [pOpt_ok (pChar_eq), ebind_ok]
  simp only []
  rw [pTwmn_err_short hds hr (by omega) (by omega), ebind_err]

theorem dateLex_err_digitrun {m ds r : List Char}
    (hm : m = [] ∨ m = ['-']) (hne : ds ≠ [])
    (hds : ∀ c ∈ ds, isDig c = true)
    (hr : ∀ c, r.head? = some c → isDig c = false ∧ c ≠ '-') :
    ∃ k, dateLex (m ++ (ds ++ r)) = .error (.err k) := by
  rcases hm with rfl | rfl
  · rw [List.nil_append]
    by_cases h4 : 4 ≤ ds.length
    · refine ⟨.ch, ?_⟩
      unfold dateLex
      rw [parse_year_long hds h4, ebind_ok]
      simp only []
      rw [pChar_err_head (dropRun_head_not hds (fun c hc => (hr c hc).2)), ebind_err]
    · refine ⟨.twmn, ?_⟩
      unfold dateLex
      rw [parse_year_short hne hds (fun c hc => (hr c hc).1) (by omega), ebind_err]
  · rw [List.cons_append, List.nil_append]
    by_cases h4 : 4 ≤ ds.length
    · refine ⟨.ch, ?_⟩
      unfold dateLex
      rw [parse_year_minus_long hds h4, ebind_ok]
      simp only []
      rw [pChar_err_head (dropRun_head_not hds (fun c hc => (hr c hc).2)), ebind_err]
    · refine ⟨.twmn, ?_⟩
      unfold dateLex
      rw [parse_year_minus_short hds (fun c hc => (hr c hc).1) (by omega), ebind_err]

theorem parse_date_err_digitrun {m ds r : List Char}
    (hm : m = [] ∨ m = ['-']) (hne : ds ≠ [])
    (hds : ∀ c ∈ ds, isDig c = true)
    (hr : ∀ c, r.head? = some c → isDig c = false ∧ c ≠ '-') :
    ∃ k, parse_date (m ++ (ds ++ r)) = .error (.err k) := by
  obtain ⟨k, hk⟩ := dateLex_err_digitrun hm hne hds hr
  exact ⟨k, pMapRes_err hk⟩

theorem parse_date_err_head {inp : List Char}
    (h : ∀ c, inp.head? = some c → isDig c = false ∧ c ≠ '-') :
    parse_date inp = .error (.err .twmn) := by
  have hy : parse_year inp = .error (.err .twmn) := parse_year_err_nodig h
  have hl : dateLex inp = .error (.err .twmn) := by
    unfold dateLex
    rw [hy, ebind_err]
  exact pMapRes_err hl

theorem parse_guid_err_head {inp : List Char}
    (h : ∀ c, inp.head? = some c → isHexDig c = false) :
    parse_guid inp = .error (.err .twmn) := by
  unfold parse_guid
  rw [pTwmn_err_head h (by norm_num), ebind_err]

theorem parse_guid_err_digitrun {ds r : List Char} (hne : ds ≠ [])
    (hds : ∀ c ∈ ds, isDig c = true)
    (hr : ∀ c, r.head? = some c → isHexDig c = false ∧ c ≠ '-') :
    ∃ k, parse_guid (ds ++ r) = .error (.err k) := by
  by_cases h8 : 8 ≤ ds.length
  · refine ⟨.ch, ?_⟩
    unfold parse_guid
    rw [pTwmn_run_long (isDig_all_hex hds) h8, ebind_ok]
    simp only []
    rw [pChar_err_head (dropRun_head_not hds (fun c hc => (hr c hc).2)), ebind_err]
  · refine ⟨.twmn, ?_⟩
    unfold parse_guid
    rw [pTwmn_err_short (isDig_all_hex hds) (fun c hc => (hr c hc).1) (by omega) (by omega),
      ebind_err]

/-! ## Failure lemmas for the float grammar -/

theorem pDigit1_nil : pDigit1 [] = .error (.err .digit) :=
  pDigit1_err (fun c hc => by simp at hc)

theorem floatFrac_err {j : List Char}
    (h : ∀ c, j.head? = some c → c ≠ '.') : floatFrac j = .error (.err .ch) := by
  unfold floatFrac
  rw [pChar_err_head h, ebind_err]

theorem floatExp_err {j : List Char}
    (h : ∀ c, j.head? = some c → c ≠ 'e' ∧ c ≠ 'E') :
    floatExp j = .error (.err .oneOf) := by
  unfold floatExp
  rw [pOneOf_err_head (fun c hc =>
    contains_false_of_ne (by simp [(h c hc).1, (h c hc).2])), ebind_err]

theorem floatExp_fail {ech : Char} {esgn : List Char}
    (hech : ech = 'e' ∨ ech = 'E')
    (hesgn : esgn = [] ∨ esgn = ['+'] ∨ esgn = ['-']) :
    floatExp (ech :: esgn) = .error (.fail .digit) := by
  unfold floatExp
  rw [pOneOf_pos (by rcases hech with rfl | rfl <;> decide), ebind_ok]
  simp only []
  rcases hesgn with rfl | rfl | rfl
  · rw [pOpt_err pOneOf_nil, ebind_ok]
    simp only []
    rw [pCut_err pDigit1_nil, ebind_err]
  · rw [pOpt_ok (pOneOf_pos (by decide)), ebind_ok]
    simp only []
    rw [pCut_err pDigit1_nil, ebind_err]
  · rw [pOpt_ok (pOneOf_pos (by decide)), ebind_ok]
    simp only []
    rw [pCut_err pDigit1_nil, ebind_err]

theorem parse_float_err_verify {sgn ds r : List Char}
    (hsgn : sgn = [] ∨ sgn = ['+'] ∨ sgn = ['-']) (hne : ds ≠ [])
    (hds : ∀ c ∈ ds, isDig c = true)
    (hr : ∀ c, r.head? = some c → isDig c = false ∧ c ≠ '.' ∧ c ≠ 'e' ∧ c ≠ 'E') :
    parse_float (sgn ++ (ds ++ r)) = .error (.err .verify) := by
  obtain ⟨c, cs, rfl⟩ : ∃ c cs, ds = c :: cs := by
    cases ds with
    | nil => exact absurd rfl hne
    | cons c cs => exact ⟨c, cs, rfl⟩
  have hc : isDig c = true := hds c (by simp)
  rcases hsgn with rfl | rfl | rfl
  · rw [List.nil_append]
    unfold parse_float
    rw [pOpt_err (pOneOf_err_head (head_all (by simp : ((c :: cs) ++ r).head? = some c)
      (contains_false_of_ne (by simp [dig_ne hc (by decide : isDig '+' = false),
        dig_ne hc (by decide : isDig '-' = false)])))), ebind_ok]
    simp only []
    rw [pDigit1_run hne hds (fun x hx => (hr x hx).1), ebind_ok]
    simp only []
    rw [pOpt_err (floatFrac_err (fun x hx => (hr x hx).2.1)), ebind_ok]
    simp only []
    rw [pOpt_err (floatExp_err (fun x hx => ⟨(hr x hx).2.2.1, (hr x hx).2.2.2⟩)), ebind_ok]
    simp
  · rw [List.cons_append, List.nil_append]
    unfold parse_float
    rw [pOpt_ok (pOneOf_pos (by decide)), ebind_ok]
    simp only []
    rw [pDigit1_run hne hds (fun x hx => (hr x hx).1), ebind_ok]
    simp only []
    rw [pOpt_err (floatFrac_err (fun x hx => (hr x hx).2.1)), ebind_ok]
    simp only []
    rw [pOpt_err (floatExp_err (fun x hx => ⟨(hr x hx).2.2.1, (hr x hx).2.2.2⟩)), ebind_ok]
    simp
  · rw [List.cons_append, List.nil_append]
    unfold parse_float
    rw [pOpt_ok (pOneOf_pos (by decide)), ebind_ok]
    simp only []
    rw [pDigit1_run hne hds (fun x hx => (hr x hx).1), ebind_ok]
    simp only []
    rw [pOpt_err (floatFrac_err (fun x hx => (hr x hx).2.1)), ebind_ok]
    simp only []
    rw [pOpt_err (floatExp_err (fun x hx => ⟨(hr x hx).2.2.1, (hr x hx).2.2.2⟩)), ebind_ok]
    simp

theorem parse_float_fail_cut {sgn ds : List Char} {ech : Char} {esgn : List Char}
    (hsgn : sgn = [] ∨ sgn = ['+'] ∨ sgn = ['-']) (hne : ds ≠ [])
    (hds : ∀ c ∈ ds, isDig c = true)
    (hech : ech = 'e' ∨ ech = 'E')
    (hesgn : esgn = [] ∨ esgn = ['+'] ∨ esgn = ['-']) :
    parse_float (sgn ++ (ds ++ (ech :: esgn))) = .error (.fail .digit) := by
  obtain ⟨c, cs, rfl⟩ : ∃ c cs, ds = c :: cs := by
    cases ds with
    | nil => exact absurd rfl hne
    | cons c cs => exact ⟨c, cs, rfl⟩
  have hc : isDig c = true := hds c (by simp)
  have hechd : ∀ x, (ech :: esgn).head? = some x → isDig x = false :=
    head_all rfl (by rcases hech with rfl | rfl <;> decide)
  have hechdot : ∀ x, (ech :: esgn).head? = some x → x ≠ '.' :=
    head_all rfl (by rcases hech with rfl | rfl <;> decide)
  rcases hsgn with rfl | rfl | rfl
  · rw [List.nil_append]
    unfold parse_float
    rw [pOpt_err (pOneOf_err_head (head_all (by simp : ((c :: cs) ++ (ech :: esgn)).head? = some c)
      (contains_false_of_ne (by simp [dig_ne hc (by decide : isDig '+' = false),
        dig_ne hc (by decide : isDig '-' = false)])))), ebind_ok]
    simp only []
    rw [pDigit1_run hne hds hechd, ebind_ok]
    simp only []
    rw [pOpt_err (floatFrac_err hechdot), ebind_ok]
    simp only []
    rw [pOpt_fail (floatExp_fail hech hesgn), ebind_err]
  · rw [List.cons_append, List.nil_append]
    unfold parse_float
    rw [pOpt_ok (pOneOf_pos (by decide)), ebind_ok]
    simp only []
    rw [pDigit1_run hne hds hechd, ebind_ok]
    simp only []
    rw [pOpt_err (floatFrac_err hechdot), ebind_ok]
    simp only []
    rw [pOpt_fail (floatExp_fail hech hesgn), ebind_err]
  · rw [List.cons_append, List.nil_append]
    unfold parse_float
    rw [pOpt_ok (pOneOf_pos (by decide)), ebind_ok]
    simp only []
    rw [pDigit1_run hne hds hechd, ebind_ok]
    simp only []
    rw [pOpt_err (floatFrac_err hechdot), ebind_ok]
    simp only []
    rw [pOpt_fail (floatExp_fail hech hesgn), ebind_err]

theorem parse_float_err_head {inp : List Char}
    (h : ∀ c, inp.head? = some c → isDig c = false ∧ c ≠ '+' ∧ c ≠ '-') :
    parse_float inp = .error (.err .digit) := by
  unfold parse_float
  rw [pOpt_err (pOneOf_err_head (fun c hc =>
    contains_false_of_ne (by simp [(h c hc).2.1, (h c hc).2.2]))), ebind_ok]
  simp only []
  rw [pDigit1_err (fun c hc => (h c hc).1), ebind_err]

theorem pTag_cons_err {a : Char} {ts xs : List Char} {e : NErr}
    (h : pTag ts xs = .error e) : pTag (a :: ts) (a :: xs) = .error e := by
  simp [pTag, h]

theorem floatB_err {inp : List Char} {c : Char} {k : ErrKind}
    (hc : inp.head? = some c) (hpf : parse_float inp = .error (.err k))
    (hN : c ≠ 'N') (hI : c ≠ 'I')
    (hminus : ∀ t x, inp = '-' :: t → t.head? = some x → x ≠ 'I') :
    floatB inp = .error (.err .tag) := by
  unfold floatB
  rw [pAlt2_err (pMap_err hpf)]
  rw [pAlt2_err (pValue_err (pTag_head_ne (head_all hc hN)))]
  rw [pAlt2_err (pValue_err (pTag_head_ne (head_all hc hI)))]
  apply pValue_err
  by_cases hm : c = '-'
  · subst hm
    cases inp with
    | nil => simp at hc
    | cons a t =>
        simp only [List.head?_cons, Option.some.injEq] at hc
        subst hc
        exact pTag_cons_err (pTag_head_ne (fun x hx => hminus t x rfl hx))
  · exact pTag_head_ne (head_all hc hm)

theorem floatB_fail {inp : List Char} {k : ErrKind}
    (h : parse_float inp = .error (.fail k)) : floatB inp = .error (.fail k) :=
  pAlt2_fail (pMap_err h)

theorem parse_binary_err_head {inp : List Char} {c : Char}
    (hc : inp.head? = some c) (h : lowerAscii c ≠ 'b') :
    parse_binary inp = .error (.err .tag) := by
  apply pMapRes_err
  unfold binaryLex
  rw [pTagNoCase_head_ne (head_all hc
    (by rw [(by decide : lowerAscii 'b' = 'b')]; exact h)), ebind_err]

theorem binB_err {inp : List Char} {c : Char}
    (hc : inp.head? = some c) (h : lowerAscii c ≠ 'b') :
    binB inp = .error (.err .tag) :=
  pMap_err (parse_binary_err_head hc h)

/-- On an input whose first character is a digit or a sign, the null,
boolean and string alternatives all fail recoverably, so `parse_literal`
reduces to the date → GUID → float → integer → binary cascade. -/
theorem parse_literal_reduce {inp : List Char} {c : Char} (hc : inp.head? = some c)
    (h : isDig c = true ∨ c = '+' ∨ c = '-') :
    parse_literal inp = pAlt2 dateB (pAlt2 guidB (pAlt2 floatB (pAlt2 intB binB))) inp := by
  have h1 : c ≠ 'n' ∧ lowerAscii c ≠ 't' ∧ lowerAscii c ≠ 'f' ∧ c ≠ '\'' := by
    rcases h with hd | rfl | rfl
    · exact ⟨(isDig_facts hd).1, (isDig_facts hd).2.1, (isDig_facts hd).2.2.1,
        (isDig_facts hd).2.2.2.1⟩
    · decide
    · decide
  unfold parse_literal
  rw [pAlt2_err (nullB_err hc h1.1)]
  rw [pAlt2_err (boolB_err hc h1.2.1 h1.2.2.1)]
  rw [pAlt2_err (stringB_err (head_all hc h1.2.2.2))]

/-! ## Decimal rendering round-trip -/

theorem digitChar_spec {d : Nat} (h : d < 10) :
    isDig (digitChar d) = true ∧ (digitChar d).toNat - 48 = d := by
  interval_cases d <;> decide

theorem digitsVal_append_singleton (xs : List Char) (c : Char) :
    digitsVal (xs ++ [c]) = digitsVal xs * 10 + (c.toNat - 48) := by
  unfold digitsVal
  rw [List.foldl_append]
  rfl

theorem natDigits_spec (n : Nat) :
    natDigits n ≠ [] ∧ (∀ c ∈ natDigits n, isDig c = true) ∧
      digitsVal (natDigits n) = n := by
  induction n using Nat.strong_induction_on with
  | _ n ih =>
    by_cases h : n < 10
    · rw [natDigits, dif_pos h]
      obtain ⟨hd1, hd2⟩ := digitChar_spec h
      refine ⟨by simp, ?_, ?_⟩
      · intro c hc
        simp only [List.mem_singleton] at hc
        rwa [hc]
      · simp only [digitsVal, List.foldl_cons, List.foldl_nil]
        omega
    · rw [natDigits, dif_neg h]
      have hdiv : n / 10 < n := Nat.div_lt_self (by omega) (by omega)
      obtain ⟨ih1, ih2, ih3⟩ := ih (n / 10) hdiv
      have hmod : n % 10 < 10 := Nat.mod_lt _ (by omega)
      obtain ⟨hd1, hd2⟩ := digitChar_spec hmod
      refine ⟨by simp, ?_, ?_⟩
      · intro c hc
        rcases List.mem_append.mp hc with hc1 | hc2
        · exact ih2 c hc1
        · simp only [List.mem_singleton] at hc2
          rwa [hc2]
      · rw [digitsVal_append_singleton, ih3, hd2]
        omega

/-! ## `parse_literal` on pure digit runs -/

theorem dateB_err {inp : List Char} {e : NErr}
    (h : parse_date inp = .error e) : dateB inp = .error e := pMap_err h

theorem guidB_err {inp : List Char} {e : NErr}
    (h : parse_guid inp = .error e) : guidB inp = .error e := pMap_err h

theorem intB_err {inp : List Char} {e : NErr}
    (h : parseI64 inp = .error e) : intB inp = .error e := pMap_err h

theorem intB_ok {inp r : List Char} {v : Int}
    (h : parseI64 inp = .ok (r, v)) : intB inp = .ok (r, .integer v) := pMap_ok h

theorem literal_digitrun_ok {ds : List Char} (hne : ds ≠ [])
    (hds : ∀ c ∈ ds, isDig c = true) (hmax : (digitsVal ds : Int) ≤ 2 ^ 63 - 1) :
    parse_literal ds = .ok ([], .integer (digitsVal ds)) := by
  obtain ⟨c, cs, rfl⟩ : ∃ c cs, ds = c :: cs := by
    cases ds with
    | nil => exact absurd rfl hne
    | cons c cs => exact ⟨c, cs, rfl⟩
  have hc : isDig c = true := hds c (by simp)
  have hhead : (c :: cs).head? = some c := rfl
  rw [parse_literal_reduce hhead (Or.inl hc)]
  obtain ⟨k1, hd⟩ : ∃ k, parse_date (c :: cs) = .error (.err k) := by
    simpa using @parse_date_err_digitrun [] (c :: cs) [] (Or.inl rfl) hne hds
      (fun x hx => by simp at hx)
  rw [pAlt2_err (dateB_err hd)]
  obtain ⟨k2, hg⟩ : ∃ k, parse_guid (c :: cs) = .error (.err k) := by
    simpa using @parse_guid_err_digitrun (c :: cs) [] hne hds (fun x hx => by simp at hx)
  rw [pAlt2_err (guidB_err hg)]
  have hpf : parse_float (c :: cs) = .error (.err .verify) := by
    simpa using @parse_float_err_verify [] (c :: cs) [] (Or.inl rfl) hne hds
      (fun x hx => by simp at hx)
  have hfl := floatB_err hhead hpf (dig_ne hc (by decide)) (dig_ne hc (by decide))
    (fun t x hinp hx => by
      injection hinp with h1 h2
      exact absurd h1 (dig_ne hc (by decide)))
  rw [pAlt2_err hfl]
  have hint : parseI64 (c :: cs) = .ok ([], (digitsVal (c :: cs) : Int)) := by
    simpa using @parseI64_pos (c :: cs) [] hne hds (fun x hx => by simp at hx) hmax
  rw [pAlt2_ok (intB_ok hint)]

theorem literal_digitrun_overflow {ds : List Char} (hne : ds ≠ [])
    (hds : ∀ c ∈ ds, isDig c = true) (hover : 2 ^ 63 - 1 < (digitsVal ds : Int)) :
    parse_literal ds = .error (.err .tag) := by
  obtain ⟨c, cs, rfl⟩ : ∃ c cs, ds = c :: cs := by
    cases ds with
    | nil => exact absurd rfl hne
    | cons c cs => exact ⟨c, cs, rfl⟩
  have hc : isDig c = true := hds c (by simp)
  have hhead : (c :: cs).head? = some c := rfl
  rw [parse_literal_reduce hhead (Or.inl hc)]
  obtain ⟨k1, hd⟩ : ∃ k, parse_date (c :: cs) = .error (.err k) := by
    simpa using @parse_date_err_digitrun [] (c :: cs) [] (Or.inl rfl) hne hds
      (fun x hx => by simp at hx)
  rw [pAlt2_err (dateB_err hd)]
  obtain ⟨k2, hg⟩ : ∃ k, parse_guid (c :: cs) = .error (.err k) := by
    simpa using @parse_guid_err_digitrun (c :: cs) [] hne hds (fun x hx => by simp at hx)
  rw [pAlt2_err (guidB_err hg)]
  have hpf : parse_float (c :: cs) = .error (.err .verify) := by
    simpa using @parse_float_err_verify [] (c :: cs) [] (Or.inl rfl) hne hds
      (fun x hx => by simp at hx)
  have hfl := floatB_err hhead hpf (dig_ne hc (by decide)) (dig_ne hc (by decide))
    (fun t x hinp hx => by
      injection hinp with h1 h2
      exact absurd h1 (dig_ne hc (by decide)))
  rw [pAlt2_err hfl]
  have hint : parseI64 (c :: cs) = .error (.err .digit) := by
    simpa using @parseI64_pos_overflow (c :: cs) [] hne hds hover
  rw [pAlt2_err (intB_err hint)]
  exact binB_err hhead (by rw [dig_lowerAscii hc]; exact dig_ne hc (by decide))

theorem literal_minus_digitrun_ok {ds : List Char} (hne : ds ≠ [])
    (hds : ∀ c ∈ ds, isDig c = true) (hmin : -2 ^ 63 ≤ -(digitsVal ds : Int)) :
    parse_literal ('-' :: ds) = .ok ([], .integer (-(digitsVal ds : Int))) := by
  obtain ⟨c, cs, rfl⟩ : ∃ c cs, ds = c :: cs := by
    cases ds with
    | nil => exact absurd rfl hne
    | cons c cs => exact ⟨c, cs, rfl⟩
  have hc : isDig c = true := hds c (by simp)
  have hhead : ('-' :: c :: cs).head? = some '-' := rfl
  rw [parse_literal_reduce hhead (Or.inr (Or.inr rfl))]
  obtain ⟨k1, hd⟩ : ∃ k, parse_date ('-' :: c :: cs) = .error (.err k) := by
    simpa using @parse_date_err_digitrun ['-'] (c :: cs) [] (Or.inr rfl) hne hds
      (fun x hx => by simp at hx)
  rw [pAlt2_err (dateB_err hd)]
  have hg : parse_guid ('-' :: c :: cs) = .error (.err .twmn) :=
    parse_guid_err_head (head_all hhead (by decide))
  rw [pAlt2_err (guidB_err hg)]
  have hpf : parse_float ('-' :: c :: cs) = .error (.err .verify) := by
    simpa using @parse_float_err_verify ['-'] (c :: cs) [] (Or.inr (Or.inr rfl)) hne hds
      (fun x hx => by simp at hx)
  have hfl := floatB_err hhead hpf (by decide) (by decide)
    (fun t x hinp hx => by
      injection hinp with h1 h2
      rw [← h2] at hx
      simp only [List.head?_cons, Option.some.injEq] at hx
      rw [← hx]
      exact dig_ne hc (by decide))
  rw [pAlt2_err hfl]
  have hint : parseI64 ('-' :: c :: cs) = .ok ([], -(digitsVal (c :: cs) : Int)) := by
    simpa using @parseI64_minus (c :: cs) [] hne hds (fun x hx => by simp at hx) hmin
  rw [pAlt2_ok (intB_ok hint)]

theorem literal_plus_digitrun_ok {ds : List Char} (hne : ds ≠ [])
    (hds : ∀ c ∈ ds, isDig c = true) (hmax : (digitsVal ds : Int) ≤ 2 ^ 63 - 1) :
    parse_literal ('+' :: ds) = .ok ([], .integer (digitsVal ds)) := by
  obtain ⟨c, cs, rfl⟩ : ∃ c cs, ds = c :: cs := by
    cases ds with
    | nil => exact absurd rfl hne
    | cons c cs => exact ⟨c, cs, rfl⟩
  have hc : isDig c = true := hds c (by simp)
  have hhead : ('+' :: c :: cs).head? = some '+' := rfl
  rw [parse_literal_reduce hhead (Or.inr (Or.inl rfl))]
  have hd : parse_date ('+' :: c :: cs) = .error (.err .twmn) :=
    parse_date_err_head (head_all hhead (by decide))
  rw [pAlt2_err (dateB_err hd)]
  have hg : parse_guid ('+' :: c :: cs) = .error (.err .twmn) :=
    parse_guid_err_head (head_all hhead (by decide))
  rw [pAlt2_err (guidB_err hg)]
  have hpf : parse_float ('+' :: c :: cs) = .error (.err .verify) := by
    simpa using @parse_float_err_verify ['+'] (c :: cs) [] (Or.inr (Or.inl rfl)) hne hds
      (fun x hx => by simp at hx)
  have hfl := floatB_err hhead hpf (by decide) (by decide)
    (fun t x hinp hx => by
      injection hinp with h1 h2
      exact absurd h1 (by decide))
  rw [pAlt2_err hfl]
  have hint : parseI64 ('+' :: c :: cs) = .ok ([], (digitsVal (c :: cs) : Int)) := by
    simpa using @parseI64_plus (c :: cs) [] hne hds (fun x hx => by simp at hx) hmax
  rw [pAlt2_ok (intB_ok hint)]

/-- C3: for every value `n` representable as a signed 64-bit integer,
`parse_literal` applied to the decimal string rendering of `n` succeeds
with `Literal::Integer(n)` and an empty remaining input. -/
theorem claim_C3 (n : Int) (h1 : -2 ^ 63 ≤ n) (h2 : n ≤ 2 ^ 63 - 1) :
    parse_literal (intToDecimal n) = .ok ([], .integer n) := by
  unfold intToDecimal
  by_cases hn : n < 0
  · rw [if_pos hn]
    obtain ⟨hne, hds, hval⟩ := natDigits_spec n.natAbs
    have hcast : ((n.natAbs : Nat) : Int) = -n :=
      Int.ofNat_natAbs_of_nonpos (le_of_lt hn)
    have hmin : -2 ^ 63 ≤ -(digitsVal (natDigits n.natAbs) : Int) := by
      rw [hval, hcast]
      omega
    rw [literal_minus_digitrun_ok hne hds hmin, hval, hcast]
    norm_num
  · rw [if_neg hn]
    push_neg at hn
    obtain ⟨hne, hds, hval⟩ := natDigits_spec n.toNat
    have hcast : ((n.toNat : Nat) : Int) = n := Int.toNat_of_nonneg hn
    have hmax : (digitsVal (natDigits n.toNat) : Int) ≤ 2 ^ 63 - 1 := by
      rw [hval, hcast]
      exact h2
    rw [literal_digitrun_ok hne hds hmax, hval, hcast]

theorem claim_C3_wit : parse_literal (intToDecimal 3) = .ok ([], .integer 3) ∧
    parse_literal (intToDecimal (-12)) = .ok ([], .integer (-12)) :=
  ⟨claim_C3 3 (by decide) (by decide), claim_C3 (-12) (by decide) (by decide)⟩

/-- C8: a pure decimal digit run is never parsed as a date — the date
sub-parser fails recoverably on it — and `parse_literal` interprets it as
an `Integer` when it is in the signed 64-bit range. -/
theorem claim_C8 (ds : List Char) (hne : ds ≠ []) (hds : ∀ c ∈ ds, isDig c = true) :
    isRecErr (parse_date ds) ∧
      ((digitsVal ds : Int) ≤ 2 ^ 63 - 1 →
        parse_literal ds = .ok ([], .integer (digitsVal ds))) := by
  constructor
  · obtain ⟨k, hk⟩ := @parse_date_err_digitrun [] ds [] (Or.inl rfl) hne hds
      (fun x hx => by simp at hx)
    exact ⟨k, by simpa using hk⟩
  · exact fun hmax => literal_digitrun_ok hne hds hmax

theorem claim_C8_wit : isRecErr (parse_date ['4', '2']) ∧
    parse_literal ['4', '2'] = .ok ([], .integer 42) := by
  obtain ⟨hh1, hh2⟩ := claim_C8 ['4', '2'] (by decide) (by decide)
  exact ⟨hh1, hh2 (by decide)⟩

/-- C7: the integer sub-parser fails recoverably when no digit is present
after the optional sign, or when the signed digit run denotes a value
outside the signed 64-bit range; `parse_literal` on a pure over-range
digit run returns a recoverable error. -/
theorem claim_C7 :
    (∀ inp : List Char, (∀ c, inp.head? = some c → isDig c = false ∧ c ≠ '+' ∧ c ≠ '-') →
      parseI64 inp = .error (.err .digit)) ∧
    (∀ (s : Char) (inp : List Char), (s = '+' ∨ s = '-') →
      (∀ c, inp.head? = some c → isDig c = false) →
      parseI64 (s :: inp) = .error (.err .digit)) ∧
    (∀ ds r : List Char, ds ≠ [] → (∀ c ∈ ds, isDig c = true) →
      2 ^ 63 - 1 < (digitsVal ds : Int) →
      parseI64 (ds ++ r) = .error (.err .digit) ∧
      parseI64 ('+' :: (ds ++ r)) = .error (.err .digit)) ∧
    (∀ ds r : List Char, ds ≠ [] → (∀ c ∈ ds, isDig c = true) →
      2 ^ 63 < (digitsVal ds : Int) →
      parseI64 ('-' :: (ds ++ r)) = .error (.err .digit)) ∧
    (∀ ds : List Char, ds ≠ [] → (∀ c ∈ ds, isDig c = true) →
      2 ^ 63 - 1 < (digitsVal ds : Int) → isRecErr (parse_literal ds)) := by
  refine ⟨fun inp h => parseI64_err_nosign h,
    fun s inp hs h => parseI64_err_sign hs h,
    fun ds r hne hds hover =>
      ⟨parseI64_pos_overflow hne hds hover, parseI64_plus_overflow hne hds hover⟩,
    fun ds r hne hds hover =>
      parseI64_minus_overflow hne hds (by omega),
    fun ds hne hds hover => ⟨.tag, literal_digitrun_overflow hne hds hover⟩⟩

theorem claim_C7_wit :
    parseI64 ['x'] = .error (.err .digit) ∧
    parseI64 ['+', 'x'] = .error (.err .digit) ∧
    parseI64 "9999999999999999999".toList = .error (.err .digit) ∧
    parseI64 ('-' :: "99999999999999999999".toList) = .error (.err .digit) ∧
    isRecErr (parse_literal "9999999999999999999".toList) := by
  refine ⟨claim_C7.1 ['x'] (by decide),
    claim_C7.2.1 '+' ['x'] (Or.inl rfl) (by decide), ?_, ?_,
    claim_C7.2.2.2.2 "9999999999999999999".toList (by decide) (by decide) (by decide)⟩
  · have := (claim_C7.2.2.1 "9999999999999999999".toList [] (by decide) (by decide)
      (by decide)).1
    simpa using this
  · have := claim_C7.2.2.2.1 "99999999999999999999".toList [] (by decide) (by decide)
      (by decide)
    simpa using this

/-- C1 (counterexample to the claim as stated): `parse_literal` on
`"2023-02-30"` does not fail — the recoverable date failure falls through
and the integer alternative accepts the prefix `2023`. -/
theorem claim_C1_cex :
    parse_literal "2023-02-30".toList = .ok ("-02-30".toList, .integer 2023) := by
  decide

/-- C1 (amended): `parse_date` on `"2023-02-30"` fails with a recoverable
`ConversionFailure` (`map_res`), so no `Date` literal is produced; but
`parse_literal` on the same input succeeds, the integer alternative
accepting the prefix `2023` and leaving `-02-30` unconsumed. -/
theorem claim_C1 :
    parse_date "2023-02-30".toList = .error (.err .mapRes) ∧
    parse_literal "2023-02-30".toList = .ok ("-02-30".toList, .integer 2023) := by
  constructor
  · decide
  · decide

/-- C10: the `null` keyword is matched case-sensitively while the boolean
keywords are matched case-insensitively: `"null"` parses to `Null`, every
other casing of `null` makes `parse_literal` fail, and every casing of
`true`/`false` parses to the corresponding `Boolean`. -/
theorem claim_C10 :
    parse_literal "null".toList = .ok ([], .null) ∧
    (∀ s : List Char, isCaseVariant s "null".toList = true → s ≠ "null".toList →
      isRecErr (parse_literal s)) ∧
    (∀ s : List Char, isCaseVariant s "true".toList = true →
      parse_literal s = .ok ([], .boolean true)) ∧
    (∀ s : List Char, isCaseVariant s "false".toList = true →
      parse_literal s = .ok ([], .boolean false)) := by
  have un : upperAscii 'n' = 'N' := by decide
  have uu : upperAscii 'u' = 'U' := by decide
  have ul : upperAscii 'l' = 'L' := by decide
  have ut : upperAscii 't' = 'T' := by decide
  have ur : upperAscii 'r' = 'R' := by decide
  have ue : upperAscii 'e' = 'E' := by decide
  have uf : upperAscii 'f' = 'F' := by decide
  have ua : upperAscii 'a' = 'A' := by decide
  have us : upperAscii 's' = 'S' := by decide
  refine ⟨by decide, ?_, ?_, ?_⟩
  · intro s h hne
    cases s with
    | nil => simp [isCaseVariant] at h
    | cons c0 s =>
    cases s with
    | nil => simp [isCaseVariant] at h
    | cons c1 s =>
    cases s with
    | nil => simp [isCaseVariant] at h
    | cons c2 s =>
    cases s with
    | nil => simp [isCaseVariant] at h
    | cons c3 s =>
    cases s with
    | cons c4 s => simp [isCaseVariant] at h
    | nil =>
        simp only [String.toList, isCaseVariant, un, uu, ul, Bool.and_eq_true,
          Bool.or_eq_true, decide_eq_true_eq] at h
        obtain ⟨h0, h1, h2, h3, -⟩ := h
        rcases h0 with rfl | rfl <;> rcases h1 with rfl | rfl <;>
          rcases h2 with rfl | rfl <;> rcases h3 with rfl | rfl <;>
          first
            | exact absurd rfl hne
            | exact ⟨.tag, by decide⟩
  · intro s h
    cases s with
    | nil => simp [isCaseVariant] at h
    | cons c0 s =>
    cases s with
    | nil => simp [isCaseVariant] at h
    | cons c1 s =>
    cases s with
    | nil => simp [isCaseVariant] at h
    | cons c2 s =>
    cases s with
    | nil => simp [isCaseVariant] at h
    | cons c3 s =>
    cases s with
    | cons c4 s => simp [isCaseVariant] at h
    | nil =>
        simp only [String.toList, isCaseVariant, ut, ur, uu, ue, Bool.and_eq_true,
          Bool.or_eq_true, decide_eq_true_eq] at h
        obtain ⟨h0, h1, h2, h3, -⟩ := h
        rcases h0 with rfl | rfl <;> rcases h1 with rfl | rfl <;>
          rcases h2 with rfl | rfl <;> rcases h3 with rfl | rfl <;> decide
  · intro s h
    cases s with
    | nil => simp [isCaseVariant] at h
    | cons c0 s =>
    cases s with
    | nil => simp [isCaseVariant] at h
    | cons c1 s =>
    cases s with
    | nil => simp [isCaseVariant] at h
    | cons c2 s =>
    cases s with
    | nil => simp [isCaseVariant] at h
    | cons c3 s =>
    cases s with
    | nil => simp [isCaseVariant] at h
    | cons c4 s =>
    cases s with
    | cons c5 s => simp [isCaseVariant] at h
    | nil =>
        simp only [String.toList, isCaseVariant, uf, ua, ul, us, ue, Bool.and_eq_true,
          Bool.or_eq_true, decide_eq_true_eq] at h
        obtain ⟨h0, h1, h2, h3, h4, -⟩ := h
        rcases h0 with rfl | rfl <;> rcases h1 with rfl | rfl <;>
          rcases h2 with rfl | rfl <;> rcases h3 with rfl | rfl <;>
          rcases h4 with rfl | rfl <;> decide

theorem claim_C10_wit :
    isRecErr (parse_literal "NULL".toList) ∧
    parse_literal "True".toList = .ok ([], .boolean true) ∧
    parse_literal "FALSE".toList = .ok ([], .boolean false) :=
  ⟨claim_C10.2.1 "NULL".toList (by decide) (by decide),
   claim_C10.2.2.1 "True".toList (by decide),
   claim_C10.2.2.2 "FALSE".toList (by decide)⟩

/-- C2: a signed digit run with neither a fractional part nor an exponent
part immediately after it is rejected by `parse_float` (recoverably), and
`parse_literal` never yields a `Float` on such an input. -/
theorem claim_C2 (sgn ds r : List Char)
    (hsgn : sgn = [] ∨ sgn = ['+'] ∨ sgn = ['-']) (hne : ds ≠ [])
    (hds : ∀ c ∈ ds, isDig c = true)
    (hr : ∀ c, r.head? = some c → isDig c = false ∧ c ≠ '.' ∧ c ≠ 'e' ∧ c ≠ 'E') :
    isRecErr (parse_float (sgn ++ (ds ++ r))) ∧
    (∀ (rest : List Char) (f : FloatVal),
      parse_literal (sgn ++ (ds ++ r)) ≠ .ok (rest, .float f)) ∧
    (r = [] →
      ((sgn = [] ∨ sgn = ['+']) → (digitsVal ds : Int) ≤ 2 ^ 63 - 1 →
        parse_literal (sgn ++ (ds ++ r)) = .ok ([], .integer (digitsVal ds))) ∧
      (sgn = ['-'] → -2 ^ 63 ≤ -(digitsVal ds : Int) →
        parse_literal (sgn ++ (ds ++ r)) = .ok ([], .integer (-(digitsVal ds : Int))))) := by
  have hpf : parse_float (sgn ++ (ds ++ r)) = .error (.err .verify) :=
    parse_float_err_verify hsgn hne hds hr
  refine ⟨⟨.verify, hpf⟩, ?_, ?_⟩
  case refine_2 =>
    rintro rfl
    constructor
    · rintro (rfl | rfl) hmax
      · simpa using literal_digitrun_ok hne hds hmax
      · simpa using literal_plus_digitrun_ok hne hds hmax
    · rintro rfl hmin
      simpa using literal_minus_digitrun_ok hne hds hmin
  intro rest f hok
  obtain ⟨c, cs, rfl⟩ : ∃ c cs, ds = c :: cs := by
    cases ds with
    | nil => exact absurd rfl hne
    | cons c cs => exact ⟨c, cs, rfl⟩
  have hc : isDig c = true := hds c (by simp)
  have hfl : floatB (sgn ++ ((c :: cs) ++ r)) = .error (.err .tag) := by
    rcases hsgn with rfl | rfl | rfl
    · rw [List.nil_append]
      exact floatB_err (by simp) (by simpa using hpf)
        (dig_ne hc (by decide)) (dig_ne hc (by decide))
        (fun t x hinp hx => by
          injection hinp with h1 h2
          exact absurd h1 (dig_ne hc (by decide)))
    · rw [List.cons_append, List.nil_append]
      exact floatB_err rfl (by simpa using hpf) (by decide) (by decide)
        (fun t x hinp hx => by
          injection hinp with h1 h2
          exact absurd h1 (by decide))
    · rw [List.cons_append, List.nil_append]
      exact floatB_err rfl (by simpa using hpf) (by decide) (by decide)
        (fun t x hinp hx => by
          injection hinp with h1 h2
          subst h2
          simp only [List.cons_append, List.head?_cons, Option.some.injEq] at hx
          rw [← hx]
          exact dig_ne hc (by decide))
  have hhead : ∃ c0, (sgn ++ ((c :: cs) ++ r)).head? = some c0 ∧
      (isDig c0 = true ∨ c0 = '+' ∨ c0 = '-') := by
    rcases hsgn with rfl | rfl | rfl
    · exact ⟨c, by simp, Or.inl hc⟩
    · exact ⟨'+', rfl, Or.inr (Or.inl rfl)⟩
    · exact ⟨'-', rfl, Or.inr (Or.inr rfl)⟩
  obtain ⟨c0, hc0, hor⟩ := hhead
  rw [parse_literal_reduce hc0 hor] at hok
  rcases pAlt2_ok_inv hok with hd | ⟨-, hok2⟩
  · obtain ⟨r', a, -, hpair⟩ := pMap_ok_inv hd
    simp at hpair
  · rcases pAlt2_ok_inv hok2 with hg | ⟨-, hok3⟩
    · obtain ⟨r', a, -, hpair⟩ := pMap_ok_inv hg
      simp at hpair
    · rcases pAlt2_ok_inv hok3 with hf | ⟨-, hok4⟩
      · rw [hfl] at hf
        cases hf
      · rcases pAlt2_ok_inv hok4 with hi | ⟨-, hb⟩
        · obtain ⟨r', a, -, hpair⟩ := pMap_ok_inv hi
          simp at hpair
        · obtain ⟨r', a, -, hpair⟩ := pMap_ok_inv hb
          simp at hpair

theorem claim_C2_wit :
    isRecErr (parse_float ['1', '2', 'x']) ∧
    (∀ (rest : List Char) (f : FloatVal),
      parse_literal ['1', '2', 'x'] ≠ .ok (rest, .float f)) ∧
    parse_literal ['1', '2'] = .ok ([], .integer 12) := by
  have h1 := claim_C2 [] ['1', '2'] ['x'] (Or.inl rfl) (by decide) (by decide) (by decide)
  have h2 := claim_C2 [] ['1', '2'] [] (Or.inl rfl) (by decide) (by decide) (by decide)
  refine ⟨by simpa using h1.1, by simpa using h1.2.1, ?_⟩
  have h3 := (h2.2.2 rfl).1 (Or.inl rfl) (by decide)
  simpa using h3

theorem parse_guid_err_eE {ds : List Char} {ech : Char} {esgn : List Char}
    (hne : ds ≠ []) (hds : ∀ c ∈ ds, isDig c = true)
    (hech : ech = 'e' ∨ ech = 'E')
    (hesgn : esgn = [] ∨ esgn = ['+'] ∨ esgn = ['-']) :
    ∃ k, parse_guid (ds ++ (ech :: esgn)) = .error (.err k) := by
  have hechhex : isHexDig ech = true := by rcases hech with rfl | rfl <;> decide
  have hhex : ∀ c ∈ ds ++ [ech], isHexDig c = true := by
    intro x hx
    rcases List.mem_append.mp hx with h1 | h2
    · exact isDig_all_hex hds x h1
    · simp only [List.mem_singleton] at h2
      rwa [h2]
  have hsplit : ds ++ (ech :: esgn) = (ds ++ [ech]) ++ esgn := by simp
  by_cases h8 : 8 ≤ ds.length
  · refine ⟨.ch, ?_⟩
    unfold parse_guid
    rw [pTwmn_run_long (isDig_all_hex hds) h8, ebind_ok]
    simp only []
    have hr0 : ∀ x, (ech :: esgn).head? = some x → x ≠ '-' :=
      head_all rfl (by rcases hech with rfl | rfl <;> decide)
    rw [pChar_err_head (dropRun_head_not hds hr0), ebind_err]
  · by_cases h7 : ds.length = 7
    · have hlen8 : (ds ++ [ech]).length = 8 := by simp [h7]
      have hdrop : (ds ++ [ech]).drop 8 = [] := by
        rw [← hlen8]
        exact List.drop_length _
      rcases hesgn with rfl | rfl | rfl
      · refine ⟨.ch, ?_⟩
        unfold parse_guid
        rw [hsplit, pTwmn_run_long hhex (by omega), ebind_ok]
        simp only []
        rw [hdrop, List.nil_append, pChar_nil, ebind_err]
      · refine ⟨.ch, ?_⟩
        unfold parse_guid
        rw [hsplit, pTwmn_run_long hhex (by omega), ebind_ok]
        simp only []
        rw [hdrop, List.nil_append, pChar_ne (by decide), ebind_err]
      · refine ⟨.twmn, ?_⟩
        unfold parse_guid
        rw [hsplit, pTwmn_run_long hhex (by omega), ebind_ok]
        simp only []
        rw [hdrop, List.nil_append, pChar_eq, ebind_ok]
        simp only []
        rw [pTwmn_err_head (fun x hx => by simp at hx) (by norm_num), ebind_err]
    · have hr' : ∀ x, esgn.head? = some x → isHexDig x = false := by
        rcases hesgn with rfl | rfl | rfl
        · exact fun x hx => by simp at hx
        · exact head_all rfl (by decide)
        · exact head_all rfl (by decide)
      refine ⟨.twmn, ?_⟩
      unfold parse_guid
      rw [hsplit, pTwmn_err_short hhex hr' (by simp; omega) (by simp; omega), ebind_err]

/-- C9: an optionally-signed digit run followed by `e`/`E` and an optional
exponent sign but no exponent digit makes `parse_literal` fail with a
non-recoverable failure (`cut`): the digit prefix is not returned as an
`Integer` with the exponent marker left over. -/
theorem claim_C9 (sgn ds esgn : List Char) (ech : Char)
    (hsgn : sgn = [] ∨ sgn = ['+'] ∨ sgn = ['-']) (hne : ds ≠ [])
    (hds : ∀ c ∈ ds, isDig c = true)
    (hech : ech = 'e' ∨ ech = 'E')
    (hesgn : esgn = [] ∨ esgn = ['+'] ∨ esgn = ['-']) :
    parse_literal (sgn ++ (ds ++ (ech :: esgn))) = .error (.fail .digit) := by
  obtain ⟨c, cs, rfl⟩ : ∃ c cs, ds = c :: cs := by
    cases ds with
    | nil => exact absurd rfl hne
    | cons c cs => exact ⟨c, cs, rfl⟩
  have hc : isDig c = true := hds c (by simp)
  have hrhead : ∀ x, (ech :: esgn).head? = some x → isDig x = false ∧ x ≠ '-' :=
    head_all rfl (by rcases hech with rfl | rfl <;> exact ⟨by decide, by decide⟩)
  obtain ⟨k1, hd⟩ : ∃ k, parse_date (sgn ++ ((c :: cs) ++ (ech :: esgn))) =
      .error (.err k) := by
    rcases hsgn with rfl | rfl | rfl
    · simpa using @parse_date_err_digitrun [] (c :: cs) (ech :: esgn) (Or.inl rfl)
        hne hds hrhead
    · exact ⟨.twmn, parse_date_err_head (head_all rfl (by decide))⟩
    · simpa using @parse_date_err_digitrun ['-'] (c :: cs) (ech :: esgn) (Or.inr rfl)
        hne hds hrhead
  obtain ⟨k2, hg⟩ : ∃ k, parse_guid (sgn ++ ((c :: cs) ++ (ech :: esgn))) =
      .error (.err k) := by
    rcases hsgn with rfl | rfl | rfl
    · simpa using parse_guid_err_eE hne hds hech hesgn
    · exact ⟨.twmn, parse_guid_err_head (head_all rfl (by decide))⟩
    · exact ⟨.twmn, parse_guid_err_head (head_all rfl (by decide))⟩
  have hpf : parse_float (sgn ++ ((c :: cs) ++ (ech :: esgn))) = .error (.fail .digit) :=
    parse_float_fail_cut hsgn hne hds hech hesgn
  obtain ⟨c0, hc0, hor⟩ : ∃ c0, (sgn ++ ((c :: cs) ++ (ech :: esgn))).head? = some c0 ∧
      (isDig c0 = true ∨ c0 = '+' ∨ c0 = '-') := by
    rcases hsgn with rfl | rfl | rfl
    · exact ⟨c, by simp, Or.inl hc⟩
    · exact ⟨'+', rfl, Or.inr (Or.inl rfl)⟩
    · exact ⟨'-', rfl, Or.inr (Or.inr rfl)⟩
  rw [parse_literal_reduce hc0 hor, pAlt2_err (dateB_err hd), pAlt2_err (guidB_err hg),
    pAlt2_fail (floatB_fail hpf)]

theorem claim_C9_wit : parse_literal "1e".toList = .error (.fail .digit) := by
  have := claim_C9 [] ['1'] [] 'e' (Or.inl rfl) (by decide) (by decide)
    (Or.inl rfl) (Or.inl rfl)
  simpa using this

/-! ## String literal round-trip -/

theorem quoteEsc_append (a b : List Char) :
    quoteEsc (a ++ b) = quoteEsc a ++ quoteEsc b := by
  induction a with
  | nil => rfl
  | cons c cs ih => simp [quoteEsc, ih]

theorem quoteEsc_noquote {p : List Char} (h : ∀ c ∈ p, c ≠ '\'') :
    quoteEsc p = p := by
  induction p with
  | nil => rfl
  | cons c cs ih =>
      rw [quoteEsc, if_neg (h c (by simp))]
      simp [ih fun c hc => h c (by simp [hc])]

theorem dropWhile_head_not {p : Char → Bool} {l : List Char} {x : Char} {xs : List Char}
    (h : l.dropWhile p = x :: xs) : p x = false := by
  induction l with
  | nil => cases h
  | cons a as ih =>
      rw [List.dropWhile_cons] at h
      by_cases hpa : p a = true
      · rw [hpa] at h
        simp only [if_true] at h
        exact ih h
      · rw [Bool.not_eq_true] at hpa
        rw [hpa] at h
        simp only [Bool.false_eq_true, if_false] at h
        injection h with h1 h2
        rw [← h1]
        exact hpa

theorem strPart_quotes {rest : List Char} :
    strPart ('\'' :: '\'' :: rest) = .ok (rest, ['\'']) := by
  have h1 : pIsNot ['\''] ('\'' :: '\'' :: rest) = .error (.err .isNot) := by
    unfold pIsNot
    rw [takeWhile_nil_of_head (fun c hc => by
      simp only [List.head?_cons, Option.some.injEq] at hc
      rw [← hc]
      decide)]
    simp
  unfold strPart
  rw [pAlt2_err h1]
  exact pValue_ok (show pTag ['\'', '\''] ('\'' :: '\'' :: rest) =
    .ok (rest, ['\'', '\'']) by simp [pTag])

theorem strPart_quote_end : strPart ['\''] = .error (.err .tag) := by
  have h1 : pIsNot ['\''] ['\''] = .error (.err .isNot) := by
    unfold pIsNot
    rw [takeWhile_nil_of_head (fun c hc => by
      simp only [List.head?_cons, Option.some.injEq] at hc
      rw [← hc]
      decide)]
    simp
  unfold strPart
  rw [pAlt2_err h1]
  exact pValue_err (show pTag ['\'', '\''] ['\''] = .error (.err .tag) by simp [pTag])

theorem strPart_run {p rest : List Char} (hne : p ≠ [])
    (hp : ∀ c ∈ p, c ≠ '\'') (hr : rest.head? = some '\'') :
    strPart (p ++ rest) = .ok (rest, p) := by
  unfold strPart
  apply pAlt2_ok
  unfold pIsNot
  rw [takeWhile_append_not (fun c hc => by simp [hp c hc])
    (fun c hc => by rw [hr] at hc; injection hc with hc; rw [← hc]; decide)]
  simp only [List.isEmpty_iff, List.drop_left]
  simp [hne]

theorem many0Go_quoteEsc : ∀ fuel : Nat, ∀ s : List Char,
    (quoteEsc s ++ ['\'']).length ≤ fuel →
    ∃ parts, many0StrGo fuel (quoteEsc s ++ ['\'']) = .ok (['\''], parts) ∧
      parts.flatten = s := by
  intro fuel
  induction fuel with
  | zero => intro s hs; simp at hs
  | succ fuel ih =>
      intro s hs
      by_cases hnil : s = []
      · subst hnil
        refine ⟨[], ?_, rfl⟩
        show many0StrGo (fuel + 1) ['\''] = .ok (['\''], [])
        unfold many0StrGo
        rw [strPart_quote_end]
      · by_cases hq : s.head? = some '\''
        · obtain ⟨s', rfl⟩ : ∃ s', s = '\'' :: s' := by
            cases s with
            | nil => exact absurd rfl hnil
            | cons a t =>
                simp only [List.head?_cons, Option.some.injEq] at hq
                exact ⟨t, by rw [hq]⟩
          have hform : quoteEsc ('\'' :: s') ++ ['\''] =
              '\'' :: '\'' :: (quoteEsc s' ++ ['\'']) := by
            simp [quoteEsc]
          rw [hform]
          have hlen : (quoteEsc s' ++ ['\'']).length ≤ fuel := by
            rw [hform] at hs
            simp only [List.length_cons] at hs
            omega
          obtain ⟨parts', hp', hf'⟩ := ih s' hlen
          refine ⟨['\''] :: parts', ?_, by simp [hf']⟩
          unfold many0StrGo
          rw [strPart_quotes]
          simp only []
          have hlt : (quoteEsc s' ++ ['\'']).length <
              ('\'' :: '\'' :: (quoteEsc s' ++ ['\''])).length := by
            simp
          rw [if_pos hlt, hp']
        · set q0 : Char → Bool := fun c => !(c = '\'') with hq0
          set p := s.takeWhile q0 with hp
          set q := s.dropWhile q0 with hqd
          have hsplit : p ++ q = s := by
            rw [hp, hqd]
            exact List.takeWhile_append_dropWhile q0 s
          have hpne : p ≠ [] := by
            obtain ⟨a, t, rfl⟩ : ∃ a t, s = a :: t := by
              cases s with
              | nil => exact absurd rfl hnil
              | cons a t => exact ⟨a, t, rfl⟩
            have ha : a ≠ '\'' := by
              intro hc
              rw [hc] at hq
              simp at hq
            rw [hp, List.takeWhile_cons, hq0]
            simp [ha]
          have hpnq : ∀ c ∈ p, c ≠ '\'' := by
            intro c hc
            have := takeWhile_mem (hp ▸ hc)
            rw [hq0] at this
            simpa using this
          have hqhead : (quoteEsc q ++ ['\'']).head? = some '\'' := by
            cases hqc : q with
            | nil => simp [quoteEsc]
            | cons d t =>
                have hd : q0 d = false := dropWhile_head_not (hqd ▸ hqc)
                have hd' : d = '\'' := by
                  rw [hq0] at hd
                  simpa using hd
                subst hd'
                simp [quoteEsc]
          have hform : quoteEsc s ++ ['\''] = p ++ (quoteEsc q ++ ['\'']) := by
            rw [← hsplit, quoteEsc_append, quoteEsc_noquote hpnq]
            simp
          have hp1 : 1 ≤ p.length := by
            cases hpc : p with
            | nil => exact absurd hpc hpne
            | cons a t => simp
          have hlensum : (quoteEsc s ++ ['\'']).length =
              p.length + (quoteEsc q ++ ['\'']).length := by
            rw [hform, List.length_append]
          rw [hform]
          have hlen : (quoteEsc q ++ ['\'']).length ≤ fuel := by omega
          obtain ⟨parts', hp', hf'⟩ := ih q hlen
          refine ⟨p :: parts', ?_, by simp [hf', hsplit]⟩
          unfold many0StrGo
          rw [strPart_run hpne hpnq hqhead]
          simp only []
          have hlt : (quoteEsc q ++ ['\'']).length < (p ++ (quoteEsc q ++ ['\''])).length := by
            simp only [List.length_append]
            omega
          rw [if_pos hlt, hp']

theorem stringB_ok {inp r v : List Char}
    (h : parse_string inp = .ok (r, v)) : stringB inp = .ok (r, .str v) := pMap_ok h

/-- C4: string round-trip — encoding any string by doubling every single
quote and wrapping it in quotes, then parsing, yields back exactly that
string with no remaining input, both through `parse_string` and through
`parse_literal`. -/
theorem claim_C4 (s : List Char) :
    parse_string (encodeQuoted s) = .ok ([], s) ∧
    parse_literal (encodeQuoted s) = .ok ([], .str s) := by
  have hps : parse_string (encodeQuoted s) = .ok ([], s) := by
    unfold parse_string encodeQuoted
    rw [pChar_eq, ebind_ok]
    simp only []
    obtain ⟨parts, hp, hflat⟩ := many0Go_quoteEsc ((quoteEsc s ++ ['\'']).length + 1) s
      (by omega)
    rw [(show pMany0Str (quoteEsc s ++ ['\'']) = .ok (['\''], parts) from hp), ebind_ok]
    simp only []
    rw [pChar_eq, ebind_ok]
    simp only []
    rw [hflat]
    rfl
  refine ⟨hps, ?_⟩
  have hhead : (encodeQuoted s).head? = some '\'' := rfl
  unfold parse_literal
  rw [pAlt2_err (nullB_err hhead (by decide)),
    pAlt2_err (boolB_err hhead (by decide) (by decide)),
    pAlt2_ok (stringB_ok hps)]

/-! ## Base64 round-trip -/

theorem b64charVal_b64char {s : Nat} (h : s < 64) :
    b64charVal (b64char s) = some s := by
  have hall : ∀ t : Fin 64, b64charVal (b64char t.val) = some t.val := by decide
  exact hall ⟨s, h⟩

theorem b64char_props {s : Nat} (h : s < 64) :
    isBase64urlChar (b64char s) = true ∧ b64char s ≠ '=' ∧ b64char s ≠ '\'' := by
  have hall : ∀ t : Fin 64, isBase64urlChar (b64char t.val) = true ∧
      b64char t.val ≠ '=' ∧ b64char t.val ≠ '\'' := by decide
  exact hall ⟨s, h⟩

theorem b64padCount_le (k : Nat) : b64padCount k ≤ 2 := by
  unfold b64padCount
  split_ifs <;> norm_num

theorem b64padCount_add3 (k : Nat) : b64padCount (k + 3) = b64padCount k := by
  unfold b64padCount
  have h3 : (k + 3) % 3 = k % 3 := by omega
  rw [h3]

theorem encBody_spec : ∀ n : Nat, ∀ b : List Nat, b.length ≤ n →
    (∀ x ∈ b, x < 256) →
    (∀ c ∈ b64encodeBody b, isBase64urlChar c = true ∧ c ≠ '=' ∧ c ≠ '\'') ∧
    ((b64encodeBody b).length + b64padCount b.length) % 4 = 0 ∧
    ∃ ss, b64charVals (b64encodeBody b) = some ss ∧
      b64sextetsToBytes ss = some b := by
  intro n
  induction n with
  | zero =>
      intro b hlen hb
      have hb0 : b = [] := by
        cases b with
        | nil => rfl
        | cons x t => simp at hlen
      subst hb0
      exact ⟨by simp [b64encodeBody], by decide, [], rfl, rfl⟩
  | succ n ih =>
      intro b hlen hb
      match b with
      | [] => exact ⟨by simp [b64encodeBody], by decide, [], rfl, rfl⟩
      | [x] =>
          have hx : x < 256 := hb x (by simp)
          have h1 : b64charVal (b64char (x / 4)) = some (x / 4) :=
            b64charVal_b64char (by omega)
          have h2 : b64charVal (b64char (x % 4 * 16)) = some (x % 4 * 16) :=
            b64charVal_b64char (by omega)
          refine ⟨?_, by norm_num [b64encodeBody, b64padCount], [x / 4, x % 4 * 16], ?_, ?_⟩
          · intro c hc
            simp only [b64encodeBody, List.mem_cons, List.mem_singleton,
              List.not_mem_nil, or_false] at hc
            rcases hc with rfl | rfl
            · exact b64char_props (by omega)
            · exact b64char_props (by omega)
          · simp [b64encodeBody, b64charVals, h1, h2]
          · show b64sextetsToBytes [x / 4, x % 4 * 16] = some [x]
            simp only [b64sextetsToBytes]
            rw [if_pos (Nat.mul_mod_left _ 16)]
            simp only [Option.some.injEq, List.cons.injEq, and_true]
            omega
      | [x, y] =>
          have hx : x < 256 := hb x (by simp)
          have hy : y < 256 := hb y (by simp)
          have h1 : b64charVal (b64char (x / 4)) = some (x / 4) :=
            b64charVal_b64char (by omega)
          have h2 : b64charVal (b64char (x % 4 * 16 + y / 16)) =
              some (x % 4 * 16 + y / 16) := b64charVal_b64char (by omega)
          have h3 : b64charVal (b64char (y % 16 * 4)) = some (y % 16 * 4) :=
            b64charVal_b64char (by omega)
          refine ⟨?_, by norm_num [b64encodeBody, b64padCount],
            [x / 4, x % 4 * 16 + y / 16, y % 16 * 4], ?_, ?_⟩
          · intro c hc
            simp only [b64encodeBody, List.mem_cons, List.mem_singleton,
              List.not_mem_nil, or_false] at hc
            rcases hc with rfl | rfl | rfl
            · exact b64char_props (by omega)
            · exact b64char_props (by omega)
            · exact b64char_props (by omega)
          · simp [b64encodeBody, b64charVals, h1, h2, h3]
          · show b64sextetsToBytes [x / 4, x % 4 * 16 + y / 16, y % 16 * 4] = some [x, y]
            simp only [b64sextetsToBytes]
            rw [if_pos (Nat.mul_mod_left _ 4)]
            simp only [Option.some.injEq, List.cons.injEq, and_true]
            constructor
            · omega
            · omega
      | x :: y :: z :: rest =>
          have hx : x < 256 := hb x (by simp)
          have hy : y < 256 := hb y (by simp)
          have hz : z < 256 := hb z (by simp)
          have hrest : rest.length ≤ n := by
            simp only [List.length_cons] at hlen
            omega
          obtain ⟨ihc, ihm, ss, ihmap, ihsex⟩ := ih rest hrest
            (fun w hw => hb w (by simp [hw]))
          have h1 : b64charVal (b64char (x / 4)) = some (x / 4) :=
            b64charVal_b64char (by omega)
          have h2 : b64charVal (b64char (x % 4 * 16 + y / 16)) =
              some (x % 4 * 16 + y / 16) := b64charVal_b64char (by omega)
          have h3 : b64charVal (b64char (y % 16 * 4 + z / 64)) =
              some (y % 16 * 4 + z / 64) := b64charVal_b64char (by omega)
          have h4 : b64charVal (b64char (z % 64)) = some (z % 64) :=
            b64charVal_b64char (by omega)
          refine ⟨?_, ?_, (x / 4) :: (x % 4 * 16 + y / 16) :: (y % 16 * 4 + z / 64) ::
            (z % 64) :: ss, ?_, ?_⟩
          · intro c hc
            simp only [b64encodeBody, List.mem_cons] at hc
            rcases hc with rfl | rfl | rfl | rfl | hmem
            · exact b64char_props (by omega)
            · exact b64char_props (by omega)
            · exact b64char_props (by omega)
            · exact b64char_props (by omega)
            · exact ihc c hmem
          · have hlen4 : (b64encodeBody (x :: y :: z :: rest)).length =
                4 + (b64encodeBody rest).length := by
              simp [b64encodeBody]
              omega
            rw [hlen4]
            have hpc : b64padCount (x :: y :: z :: rest).length =
                b64padCount rest.length := by
              simp only [List.length_cons]
              have : rest.length + 1 + 1 + 1 = rest.length + 3 := by omega
              rw [this, b64padCount_add3]
            rw [hpc]
            omega
          · simp [b64encodeBody, b64charVals, h1, h2, h3, h4, ihmap]
          · show b64sextetsToBytes ((x / 4) :: (x % 4 * 16 + y / 16) ::
              (y % 16 * 4 + z / 64) :: (z % 64) :: ss) = some (x :: y :: z :: rest)
            rw [b64sextetsToBytes, ihsex]
            simp only [Option.some.injEq, List.cons.injEq]
            refine ⟨by omega, by omega, by omega, trivial⟩

theorem mem_of_head? {l : List Char} {c : Char} (h : l.head? = some c) : c ∈ l := by
  cases l with
  | nil => simp at h
  | cons a as =>
      simp only [List.head?_cons, Option.some.injEq] at h
      simp [← h]

theorem trailing_pad_count {body : List Char} {p : Nat}
    (hb : ∀ c ∈ body, c ≠ '=') :
    ((body ++ List.replicate p '=').reverse.takeWhile (· = '=')).length = p := by
  rw [List.reverse_append, List.reverse_replicate]
  rw [takeWhile_append_not (fun c hc => by
      have hc' : c = '=' := List.eq_of_mem_replicate hc
      simp [hc'])
    (fun c hc => by
      have hm : c ∈ body.reverse := mem_of_head? hc
      rw [List.mem_reverse] at hm
      simp [hb c hm])]
  exact List.length_replicate p '='

theorem b64decode_split {body : List Char} {p : Nat} (hple : p ≤ 2)
    (hnq : ∀ c ∈ body, c ≠ '=')
    (hmod : p ≠ 0 → (body.length + p) % 4 = 0) :
    b64decode (body ++ List.replicate p '=') =
      (match b64charVals body with
       | some ss => b64sextetsToBytes ss
       | none => none) := by
  have hcount := @trailing_pad_count body p hnq
  have hlen : (body ++ List.replicate p '=').length - p = body.length := by
    rw [List.length_append, List.length_replicate]
    omega
  have htake : (body ++ List.replicate p '=').take
      ((body ++ List.replicate p '=').length - p) = body := by
    rw [hlen]
    exact List.take_left body (List.replicate p '=')
  have hany : body.any (· = '=') = false := by
    cases h : body.any (· = '=') with
    | false => rfl
    | true =>
        exfalso
        rw [List.any_eq_true] at h
        obtain ⟨x, hx, hpx⟩ := h
        simp only [decide_eq_true_eq] at hpx
        exact hnq x hx hpx
  simp only [b64decode, hcount, htake]
  rw [if_neg (by omega)]
  rw [hany]
  simp only [Bool.false_eq_true, if_false]
  rw [if_neg (by
    intro hcon
    exact hcon.2 (hmod hcon.1))]

theorem b64decode_enc {b : List Nat} (hb : ∀ x ∈ b, x < 256) :
    b64decode (b64encodePadded b) = some b ∧
    b64decode (b64encodeUnpadded b) = some b := by
  obtain ⟨hchars, hmod, ss, hmap, hsex⟩ := encBody_spec b.length b (le_refl _) hb
  have hnq : ∀ c ∈ b64encodeBody b, c ≠ '=' := fun c hc => (hchars c hc).2.1
  constructor
  · unfold b64encodePadded
    rw [b64decode_split (b64padCount_le _) hnq (fun _ => hmod)]
    rw [hmap]
    exact hsex
  · unfold b64encodeUnpadded
    have h0 : b64encodeBody b = b64encodeBody b ++ List.replicate 0 '=' := by simp
    rw [h0, b64decode_split (by omega) hnq (fun h => absurd rfl h)]
    rw [hmap]
    exact hsex

theorem binB_ok {inp r : List Char} {v : List Nat}
    (h : parse_binary inp = .ok (r, v)) : binB inp = .ok (r, .binary v) := pMap_ok h

theorem parse_binary_enc {cs : List Char} {bytes : List Nat}
    (hcs : ∀ c ∈ cs, isBase64urlChar c = true ∧ c ≠ '\'')
    (hdec : b64decode cs = some bytes) :
    parse_binary (binLit cs) = .ok ([], bytes) := by
  have hlex : binaryLex (binLit cs) = .ok ([], cs) := by
    unfold binaryLex
    have hshape : binLit cs =
        ('b' :: 'i' :: 'n' :: 'a' :: 'r' :: 'y' :: '\'' :: []) ++ (cs ++ ['\'']) := rfl
    rw [hshape, pTagNoCase_refl, ebind_ok]
    simp only []
    have hr' : ∀ x, (['\''] : List Char).head? = some x → isBase64urlChar x = false :=
      @head_all ['\''] '\'' (fun x => isBase64urlChar x = false) rfl (by decide)
    rw [pTakeWhile_run (fun c hc => (hcs c hc).1) hr', ebind_ok]
    simp only []
    rw [pChar_eq, ebind_ok]
    rfl
  exact pMapRes_ok hlex hdec

theorem literal_binLit {cs : List Char} {bytes : List Nat}
    (h : parse_binary (binLit cs) = .ok ([], bytes)) :
    parse_literal (binLit cs) = .ok ([], .binary bytes) := by
  have hhead : (binLit cs).head? = some 'b' := rfl
  unfold parse_literal
  rw [pAlt2_err (nullB_err hhead (by decide))]
  rw [pAlt2_err (boolB_err hhead (by decide) (by decide))]
  rw [pAlt2_err (stringB_err (head_all hhead (by decide)))]
  rw [pAlt2_err (dateB_err (parse_date_err_head (head_all hhead (by decide))))]
  have hg : parse_guid (binLit cs) = .error (.err .twmn) := by
    have hshape : binLit cs =
        ['b'] ++ ('i' :: 'n' :: 'a' :: 'r' :: 'y' :: '\'' :: (cs ++ ['\''])) := rfl
    rw [hshape]
    unfold parse_guid
    have hr' : ∀ x, ('i' :: 'n' :: 'a' :: 'r' :: 'y' :: '\'' :: (cs ++ ['\''])).head? =
        some x → isHexDig x = false :=
      head_all rfl (by decide)
    rw [pTwmn_err_short (by decide) hr' (by norm_num) (by norm_num), ebind_err]
  rw [pAlt2_err (guidB_err hg)]
  have hpf : parse_float (binLit cs) = .error (.err .digit) :=
    parse_float_err_head (head_all hhead (by decide))
  have hfl := floatB_err hhead hpf (by decide) (by decide)
    (fun t x hinp hx => by
      injection hinp with h1 h2
      exact absurd h1 (by decide))
  rw [pAlt2_err hfl]
  have hint : parseI64 (binLit cs) = .error (.err .digit) :=
    parseI64_err_nosign (head_all hhead (by decide))
  rw [pAlt2_err (intB_err hint)]
  exact binB_ok h

/-- C5: for every byte sequence, the binary literals built from the padded
and from the unpadded URL-safe base64 encodings both parse successfully to
the same `Binary` value; missing padding is never an error. -/
theorem claim_C5 (b : List Nat) (hb : ∀ x ∈ b, x < 256) :
    parse_literal (binLit (b64encodePadded b)) = .ok ([], .binary b) ∧
    parse_literal (binLit (b64encodeUnpadded b)) = .ok ([], .binary b) := by
  obtain ⟨hchars, -, -⟩ := encBody_spec b.length b (le_refl _) hb
  obtain ⟨hdecP, hdecU⟩ := b64decode_enc hb
  have hcsP : ∀ c ∈ b64encodePadded b, isBase64urlChar c = true ∧ c ≠ '\'' := by
    intro c hc
    unfold b64encodePadded at hc
    rcases List.mem_append.mp hc with h1 | h2
    · exact ⟨(hchars c h1).1, (hchars c h1).2.2⟩
    · have hc' : c = '=' := List.eq_of_mem_replicate h2
      subst hc'
      exact ⟨by decide, by decide⟩
  have hcsU : ∀ c ∈ b64encodeUnpadded b, isBase64urlChar c = true ∧ c ≠ '\'' :=
    fun c hc => ⟨(hchars c hc).1, (hchars c hc).2.2⟩
  exact ⟨literal_binLit (parse_binary_enc hcsP hdecP),
    literal_binLit (parse_binary_enc hcsU hdecU)⟩

theorem claim_C5_wit :
    parse_literal (binLit (b64encodePadded [97, 255, 0])) = .ok ([], .binary [97, 255, 0]) ∧
    parse_literal (binLit (b64encodeUnpadded [97, 255, 0])) =
      .ok ([], .binary [97, 255, 0]) :=
  claim_C5 [97, 255, 0] (by decide)

/-! ## GUID shape characterization -/

theorem ebind_ok_inv {α β : Type} {m : Except NErr α} {f : α → Except NErr β} {b : β}
    (h : (m >>= f) = .ok b) : ∃ a, m = .ok a ∧ f a = .ok b := by
  cases m with
  | ok a => exact ⟨a, rfl, h⟩
  | error e =>
      rw [ebind_err] at h
      cases h

theorem pChar_ok_inv {c : Char} {inp r : List Char} {v : Char}
    (h : pChar c inp = .ok (r, v)) : inp = c :: r ∧ v = c := by
  unfold pChar at h
  cases inp with
  | nil => cases h
  | cons x rest =>
      by_cases hx : x = c
      · subst hx
        simp at h
        exact ⟨by rw [h.1], h.2.symm⟩
      · simp [hx] at h

/-- C6: `parse_guid` succeeds exactly on inputs beginning with five
hexadecimal groups of lengths 8, 4, 4, 4, 12 separated by literal hyphens
(36 characters in all, either case), and on success it returns the matched
text verbatim, case preserved, with the rest of the input unconsumed. -/
theorem claim_C6 (inp r g : List Char) :
    parse_guid inp = .ok (r, g) ↔
      ∃ g1 g2 g3 g4 g5 : List Char,
        g = g1 ++ '-' :: g2 ++ '-' :: g3 ++ '-' :: g4 ++ '-' :: g5 ∧
        g1.length = 8 ∧ g2.length = 4 ∧ g3.length = 4 ∧ g4.length = 4 ∧
        g5.length = 12 ∧ g.length = 36 ∧
        (∀ c ∈ g1 ++ g2 ++ g3 ++ g4 ++ g5, isHexDig c = true) ∧
        inp = g ++ r := by
  constructor
  · intro h
    unfold parse_guid at h
    obtain ⟨⟨i1, g1⟩, h1, h⟩ := ebind_ok_inv h
    obtain ⟨⟨i2, c1⟩, h2, h⟩ := ebind_ok_inv h
    obtain ⟨⟨i3, g2⟩, h3, h⟩ := ebind_ok_inv h
    obtain ⟨⟨i4, c2⟩, h4, h⟩ := ebind_ok_inv h
    obtain ⟨⟨i5, g3⟩, h5, h⟩ := ebind_ok_inv h
    obtain ⟨⟨i6, c3⟩, h6, h⟩ := ebind_ok_inv h
    obtain ⟨⟨i7, g4⟩, h7, h⟩ := ebind_ok_inv h
    obtain ⟨⟨i8, c4⟩, h8, h⟩ := ebind_ok_inv h
    obtain ⟨⟨i9, g5⟩, h9, h⟩ := ebind_ok_inv h
    obtain ⟨hl1, hx1, he1⟩ := pTwmn_ok_inv h1
    obtain ⟨he2, -⟩ := pChar_ok_inv h2
    obtain ⟨hl3, hx3, he3⟩ := pTwmn_ok_inv h3
    obtain ⟨he4, -⟩ := pChar_ok_inv h4
    obtain ⟨hl5, hx5, he5⟩ := pTwmn_ok_inv h5
    obtain ⟨he6, -⟩ := pChar_ok_inv h6
    obtain ⟨hl7, hx7, he7⟩ := pTwmn_ok_inv h7
    obtain ⟨he8, -⟩ := pChar_ok_inv h8
    obtain ⟨hl9, hx9, he9⟩ := pTwmn_ok_inv h9
    have hfin : r = i9 ∧ g = g1 ++ '-' :: g2 ++ '-' :: g3 ++ '-' :: g4 ++ '-' :: g5 := by
      have h' : (Except.ok (i9, g1 ++ '-' :: g2 ++ '-' :: g3 ++ '-' :: g4 ++ '-' :: g5) :
          Except NErr (List Char × List Char)) = .ok (r, g) := h
      simp only [Except.ok.injEq, Prod.mk.injEq] at h'
      exact ⟨h'.1.symm, h'.2.symm⟩
    obtain ⟨hr9, hg⟩ := hfin
    refine ⟨g1, g2, g3, g4, g5, hg, hl1, hl3, hl5, hl7, hl9, ?_, ?_, ?_⟩
    · rw [hg]
      simp [List.length_append, hl1, hl3, hl5, hl7, hl9]
    · intro c hc
      rcases List.mem_append.mp hc with hc' | hc9
      · rcases List.mem_append.mp hc' with hc'' | hc7
        · rcases List.mem_append.mp hc'' with hc''' | hc5
          · rcases List.mem_append.mp hc''' with hc1 | hc3
            · exact hx1 c hc1
            · exact hx3 c hc3
          · exact hx5 c hc5
        · exact hx7 c hc7
      · exact hx9 c hc9
    · rw [hg, he1, he2, he3, he4, he5, he6, he7, he8, he9, hr9]
      simp
  · rintro ⟨g1, g2, g3, g4, g5, hg, hl1, hl3, hl5, hl7, hl9, -, hx, hinp⟩
    have hx1 : ∀ c ∈ g1, isHexDig c = true := fun c hc => hx c (by simp [hc])
    have hx3 : ∀ c ∈ g2, isHexDig c = true := fun c hc => hx c (by simp [hc])
    have hx5 : ∀ c ∈ g3, isHexDig c = true := fun c hc => hx c (by simp [hc])
    have hx7 : ∀ c ∈ g4, isHexDig c = true := fun c hc => hx c (by simp [hc])
    have hx9 : ∀ c ∈ g5, isHexDig c = true := fun c hc => hx c (by simp [hc])
    subst hg
    subst hinp
    have hshape : (g1 ++ '-' :: g2 ++ '-' :: g3 ++ '-' :: g4 ++ '-' :: g5) ++ r =
        g1 ++ ('-' :: (g2 ++ ('-' :: (g3 ++ ('-' :: (g4 ++ ('-' :: (g5 ++ r)))))))) := by
      simp [List.append_assoc]
    unfold parse_guid
    rw [hshape]
    rw [pTwmn_exact hl1 hx1, ebind_ok]
    simp only []
    rw [pChar_eq, ebind_ok]
    simp only []
    rw [pTwmn_exact hl3 hx3, ebind_ok]
    simp only []
    rw [pChar_eq, ebind_ok]
    simp only []
    rw [pTwmn_exact hl5 hx5, ebind_ok]
    simp only []
    rw [pChar_eq, ebind_ok]
    simp only []
    rw [pTwmn_exact hl7 hx7, ebind_ok]
    simp only []
    rw [pChar_eq, ebind_ok]
    simp only []
    rw [pTwmn_exact hl9 hx9, ebind_ok]
    simp only []
    rfl

theorem claim_C6_wit :
    parse_guid "D13EFBEC-AA20-47F4-8756-C38852488B6E".toList =
      .ok ([], "D13EFBEC-AA20-47F4-8756-C38852488B6E".toList) := by
  apply (claim_C6 _ _ _).mpr
  refine ⟨"D13EFBEC".toList, "AA20".toList, "47F4".toList, "8756".toList,
    "C38852488B6E".toList, ?_⟩
  decide
